import Mathlib

/-!
Verification of the RAG_demo knowledge-base service against its
natural-language specification.

The development shallowly embeds the Python sources:
  * `demo/tools/chunking/markdown_structure.py` (structural markdown splitter),
  * `demo/tools/document.py` (`split_text` strategy chain),
  * `demo/tools/vector_db.py` (`MilvusService.insert` / `search`),
  * `demo/services/version_service.py` (`copy_previous_version_mappings`),
  * `demo/services/document_service.py` (`DocumentService`),
  * `demo/services/sse_service.py` (`SSEService.stream_upload_status`).

Text is modelled as `List Char`.  Database tables are lists of rows, the
vector collection is a list of records, and external collaborators (the
agno chunker, the embedding API, the Milvus ANN engine, the filesystem)
are parameters or oracle functions of the embedded operations.
-/

/-- Text content, modelled as a list of characters. -/
abbrev Str := List Char

/-- Python's `\s` character class, restricted to the ASCII whitespace
characters that the sources rely on (space, tab, newline, carriage
return, vertical tab, form feed). -/
def pyIsSpace (c : Char) : Bool :=
  c = ' ' || c = '\t' || c = '\n' || c = '\r' || c = '\x0b' || c = '\x0c'

/-- Python `str.strip()`: remove leading and trailing whitespace. -/
def pyStrip (cs : Str) : Str :=
  ((cs.dropWhile pyIsSpace).reverse.dropWhile pyIsSpace).reverse

/-- Truthiness of `s` and `s.strip()` combined: the string contains at
least one non-whitespace character.  This is exactly the predicate the
sources use to keep a chunk (`if chunk and chunk.strip()`). -/
def hasNonWs (cs : Str) : Bool :=
  cs.any (fun c => !(pyIsSpace c))

/-- Boolean lexicographic order on character lists; this is the order
Python's `sorted` uses on the corresponding strings. -/
def lexLe : Str → Str → Bool
  | [], _ => true
  | _ :: _, [] => false
  | a :: as, b :: bs => if a < b then true else if b < a then false else lexLe as bs

theorem lexLe_total (a b : Str) : lexLe a b = true ∨ lexLe b a = true := by
  induction a generalizing b with
  | nil => left; rfl
  | cons x xs ih =>
    cases b with
    | nil => right; rfl
    | cons y ys =>
      by_cases hxy : x < y
      · left; simp [lexLe, hxy]
      · by_cases hyx : y < x
        · right; simp [lexLe, hyx, asymm hyx]
        · rcases ih ys with h | h
          · left; simp [lexLe, hxy, hyx, h]
          · right; simp [lexLe, hxy, hyx, h]

theorem lexLe_trans {a b c : Str} (hab : lexLe a b = true) (hbc : lexLe b c = true) :
    lexLe a c = true := by
  induction a generalizing b c with
  | nil => rfl
  | cons x xs ih =>
    cases b with
    | nil => simp [lexLe] at hab
    | cons y ys =>
      cases c with
      | nil => simp [lexLe] at hbc
      | cons z zs =>
        by_cases hxy : x < y
        · by_cases hyz : y < z
          · simp [lexLe, lt_trans hxy hyz]
          · by_cases hzy : z < y
            · simp [lexLe, hyz, hzy] at hbc
            · have hyz' : y = z := le_antisymm (not_lt.mp hzy) (not_lt.mp hyz)
              simp [lexLe, hyz' ▸ hxy]
        · by_cases hyx : y < x
          · simp [lexLe, hxy, hyx] at hab
          · have hxy' : x = y := le_antisymm (not_lt.mp hyx) (not_lt.mp hxy)
            subst hxy'
            by_cases hxz : x < z
            · simp [lexLe, hxz]
            · by_cases hzx : z < x
              · simp [lexLe, hxz, hzx] at hbc
              · simp [lexLe, hxy, hyx] at hab
                simp [lexLe, hxz, hzx] at hbc ⊢
                exact ih hab hbc

/-! ## Structural markdown splitter (`markdown_structure.py`)

The fallback splitter matches heading-led blocks with the Python regex
`(^#\s+.+?)(?=^#\s+|$)` (resp. `^##\s+` for level two), compiled with
`re.MULTILINE | re.DOTALL` and scanned with `re.finditer`.  Because the
quantifier `.+?` is non-greedy and `$` matches at every end of line in
MULTILINE mode, each match extends from a line-initial `#`-run, across
the following whitespace run, up to the next end of line: a match is the
heading line itself (plus any newlines swallowed by `\s+`).  The scanner
below reproduces exactly that behaviour. -/

/-- Does `cs` start with `k` copies of `#` followed by one whitespace
character?  (`^#\s+` resp. `^##\s+` at the current position.) -/
def startsHeading : Nat → Str → Bool
  | 0, c :: _ => pyIsSpace c
  | 0, [] => false
  | k + 1, c :: rest => c = '#' && startsHeading k rest
  | _ + 1, [] => false

/-- One regex match at the current position, given that
`startsHeading k cs` holds: the `#`-run, the maximal `\s+` run, then the
non-greedy `.+?` stopped at the first MULTILINE `$` (end of line or end
of input).  Returns the matched text and the rest of the input, or
`none` in the single corner case where the pattern cannot match (the
whitespace run reaches the end of input and has length one, so `.+?`
has nothing left to consume). -/
def extractMatch (k : Nat) (cs : Str) : Option (Str × Str) :=
  let hs := cs.take k
  let rest0 := cs.drop k
  let w := rest0.takeWhile pyIsSpace
  let rest1 := rest0.dropWhile pyIsSpace
  match rest1 with
  | [] => if 2 ≤ w.length then some (cs, []) else none
  | _ :: _ =>
      let line := rest1.takeWhile (fun c => c ≠ '\n')
      let rest2 := rest1.dropWhile (fun c => c ≠ '\n')
      some (hs ++ w ++ line, rest2)

/-- `re.finditer` over the whole input: walk the text, and at every line
start try the heading pattern; on a match, emit it and resume scanning
at the end of the match.  `fuel` is an upper bound on the remaining
input length, making the recursion structural. -/
def scanHeadingsF (k : Nat) : Nat → Str → Bool → List Str
  | 0, _, _ => []
  | _ + 1, [], _ => []
  | fuel + 1, c :: rest, atStart =>
    if atStart && startsHeading k (c :: rest) then
      match extractMatch k (c :: rest) with
      | some (m, rest2) => m :: scanHeadingsF k fuel rest2 false
      | none => scanHeadingsF k fuel rest (c = '\n')
    else
      scanHeadingsF k fuel rest (c = '\n')

/-- All matches of the level-`k` heading pattern in `content`. -/
def scanHeadings (k : Nat) (content : Str) : List Str :=
  scanHeadingsF k (content.length + 1) content true

/-! ### Size-bounded recursive splitter

`markdown_structure.py` delegates oversized blocks to langchain's
`RecursiveCharacterTextSplitter`, which is an external dependency and
not part of this repository's sources. -/

/-- `settings.CHUNK_SIZE` from `demo/config/settings.py`. -/
def CHUNK_SIZE : Nat := 1000

/-- `settings.CHUNK_OVERLAP` from `demo/config/settings.py`. -/
def CHUNK_OVERLAP : Nat := 200

/-- Smallest index `i ≥ 1` at which `sep` occurs in `cs`, if any. -/
def sepIdxFrom (sep : Str) : Str → Option Nat
  | [] => none
  | _ :: rest =>
    if sep.isPrefixOf rest then some 1
    else (sepIdxFrom sep rest).map (· + 1)

theorem sepIdxFrom_pos {sep cs : Str} {i : Nat} (h : sepIdxFrom sep cs = some i) :
    1 ≤ i ∧ cs ≠ [] := by
  cases cs with
  | nil => simp [sepIdxFrom] at h
  | cons c rest =>
    refine ⟨?_, by simp⟩
    simp only [sepIdxFrom] at h
    by_cases hp : sep.isPrefixOf rest
    · simp [hp] at h; omega
    · simp [hp] at h
      obtain ⟨j, _, hj⟩ := h
      omega

/-- Modelled from the spec: the repository calls langchain's
`RecursiveCharacterTextSplitter` (an external package whose code is not
under the repository sources), described by the spec as a "size-bounded
recursive splitter" over "an ordered list of separators from coarsest to
finest", "producing chunks of at most `CHUNK_SIZE` characters with
`CHUNK_OVERLAP` characters of trailing context carried into the next
chunk".  `splitKeepSep` cuts the text at every occurrence of the
separator, keeping the separator at the start of the following part so
no content is lost. -/
def splitKeepSep (sep : Str) : Nat → Str → List Str
  | 0, cs => [cs]
  | fuel + 1, cs =>
    match sepIdxFrom sep cs with
    | none => [cs]
    | some i => cs.take i :: splitKeepSep sep fuel (cs.drop i)

/-- Modelled from the spec: the base layer of the external recursive
splitter, once every separator has been exhausted (the final separator
is the empty string, i.e. "character").  Emits windows of exactly
`chunkSize` characters advancing by `step = chunkSize - overlap`, so
consecutive windows share `overlap` characters of trailing context. -/
def windowChunksF (chunkSize step : Nat) : Nat → Str → List Str
  | 0, cs => [cs]
  | fuel + 1, cs =>
    if cs.length ≤ chunkSize then [cs]
    else cs.take chunkSize :: windowChunksF chunkSize step fuel (cs.drop (max 1 step))

/-- Window splitting with enough fuel to terminate. -/
def windowChunks (chunkSize step : Nat) (cs : Str) : List Str :=
  windowChunksF chunkSize step cs.length cs

/-- Modelled from the spec: the external `RecursiveCharacterTextSplitter`.
A text within the size bound is one chunk; otherwise the text is cut at
the coarsest separator and every part is split recursively with the
remaining separators; the empty separator (or an exhausted list) falls
back to fixed-size windows with `overlap` characters carried forward. -/
def recursiveSplit (chunkSize overlap : Nat) : List Str → Str → List Str
  | seps, cs =>
    if cs.length ≤ chunkSize then [cs]
    else
      match seps with
      | [] => windowChunks chunkSize (chunkSize - overlap) cs
      | sep :: rest =>
        if sep = [] then windowChunks chunkSize (chunkSize - overlap) cs
        else (splitKeepSep sep cs.length cs).flatMap
          (fun part => recursiveSplit chunkSize overlap rest part)

/-- The separator list handed to the recursive splitter in
`markdown_structure.py` (sub-headings, blank line, newline, space,
character). -/
def SEPARATORS : List Str :=
  [ "\n\n### ".data, "\n\n#### ".data, "\n\n##### ".data, "\n\n###### ".data,
    "\n\n".data, "\n".data, " ".data, [] ]

/-! ## Chunks and their metadata -/

/-- The metadata record serialized into each chunk's `metadata` JSON by
the chunkers.  The `images` and `structure` entries (computed by
`chunking/utils.py`) are carried by every strategy but inspected by no
claim, so they are not modelled here; all remaining keys are. -/
structure ChunkMeta where
  main_heading : Str
  sub_heading : Str
  heading_level : Nat
  mtype : String
  part_index : Option Nat
  split_method : String
  deriving DecidableEq, Repr

/-- A chunk as produced by the chunkers: a content string plus its
metadata bag. -/
structure Chunk where
  content : Str
  meta : ChunkMeta
  deriving DecidableEq, Repr

/-- `re.match(r'^(#{1,6})\s+(.+)', block, re.MULTILINE)` as used to pull
the main heading out of a block: a run of one to six `#` (a longer run
cannot match, since backtracking always faces another `#`), at least
one whitespace character, then the rest of the line, stripped.  Returns
`(0, [])` when the pattern does not match, mirroring the
`heading_level = 0, heading_text = ""` branch. -/
def headingOfBlock (block : Str) : Nat × Str :=
  let hs := block.takeWhile (fun c => c = '#')
  let h := hs.length
  let rest0 := block.drop h
  match rest0 with
  | c :: crest =>
    if 1 ≤ h && h ≤ 6 && pyIsSpace c then
      match rest0.dropWhile pyIsSpace with
      | [] =>
        if crest.any (fun c => c ≠ '\n') then (h, []) else (0, [])
      | d :: ds => (h, pyStrip ((d :: ds).takeWhile (fun c => c ≠ '\n')))
    else (0, [])
  | [] => (0, [])

/-- `re.match(r'^##\s+(.+)', sub_block, re.MULTILINE)`: the level-two
sub-heading title of a sub-block, stripped, or `[]` when absent. -/
def subTitleOf (sub : Str) : Str :=
  match sub with
  | '#' :: '#' :: c :: rest =>
    if pyIsSpace c then
      match (c :: rest).dropWhile pyIsSpace with
      | [] => []
      | d :: ds => pyStrip ((d :: ds).takeWhile (fun c => c ≠ '\n'))
    else []
  | _ => []

/-- Metadata of a chunk produced on the no-headings fallback path. -/
def fallbackMeta (i : Nat) : ChunkMeta :=
  ⟨[], [], 0, "paragraph", some i, "recursive_fallback"⟩

/-- One top-level block of `split_markdown_by_structure`: strip it, skip
it when empty, extract the main heading, and either keep it whole (size
within `CHUNK_SIZE`), split it on level-two headings (recursing into the
size-bounded splitter for sub-blocks that are still too large), or hand
it to the size-bounded splitter directly when it has no level-two
headings. -/
def processBlock (m : Str) : List Chunk :=
  let block := pyStrip m
  if block = [] then []
  else
    let hl := headingOfBlock block
    if CHUNK_SIZE < block.length then
      let subMatches := scanHeadings 2 block
      if subMatches.isEmpty then
        (recursiveSplit CHUNK_SIZE CHUNK_OVERLAP SEPARATORS block).enum.filterMap
          (fun p => if hasNonWs p.2 then
            some ⟨p.2, ⟨hl.2, [], hl.1, "section_part", some p.1, "markdown_structure+recursive"⟩⟩
          else none)
      else
        subMatches.flatMap (fun sm =>
          let sub_block := pyStrip sm
          let subTitle := subTitleOf sub_block
          if CHUNK_SIZE < sub_block.length then
            (recursiveSplit CHUNK_SIZE CHUNK_OVERLAP SEPARATORS sub_block).enum.filterMap
              (fun p => if hasNonWs p.2 then
                some ⟨p.2, ⟨hl.2, subTitle, hl.1, "section_part", some p.1, "markdown_structure+recursive"⟩⟩
              else none)
          else
            [⟨sub_block, ⟨hl.2, subTitle, hl.1, "section", none, "markdown_structure"⟩⟩])
    else
      [⟨block, ⟨hl.2, [], hl.1, "section", none, "markdown_structure"⟩⟩]

/-- `split_markdown_by_structure` from `markdown_structure.py`: return
no chunks for empty or whitespace-only input; otherwise match level-one
heading blocks, retrying with level-two headings when there are none; if
neither exists, run the size-bounded recursive splitter over the whole
text keeping only pieces with non-whitespace content; otherwise process
each matched block in order. -/
def split_markdown_by_structure (content : Str) : List Chunk :=
  if !hasNonWs content then []
  else
    let top1 := scanHeadings 1 content
    let tops := if top1.isEmpty then scanHeadings 2 content else top1
    if tops.isEmpty then
      (recursiveSplit CHUNK_SIZE CHUNK_OVERLAP SEPARATORS content).enum.filterMap
        (fun p => if hasNonWs p.2 then some ⟨p.2, fallbackMeta p.1⟩ else none)
    else
      tops.flatMap processBlock

/-! ## Strategy chain (`document.py::split_text`)

The primary strategy is agno's `MarkdownChunking`, an external library.
Its raw output (or its absence) is a parameter: `none` models "agno not
installed" as well as "the primary chunker raised", both of which make
`split_text` continue with the fallback; `some raw` models a successful
call returning the chunk contents `raw`. -/

/-- `split_with_markdown_chunking` from `markdown_agno.py`, applied to
the raw chunk contents returned by the external agno strategy: chunks
with empty or whitespace-only content are skipped, every kept chunk is
tagged `split_method = "markdown_chunking"` with the heading found by
`re.search(r'^(#{1,6})\s+(.+)', ..., re.MULTILINE)`.  The heading search
scans for the first line start at which the heading pattern matches. -/
def searchHeadingF : Nat → Str → Bool → Nat × Str
  | 0, _, _ => (0, [])
  | _ + 1, [], _ => (0, [])
  | fuel + 1, c :: rest, atStart =>
    if atStart && (headingOfBlock (c :: rest)).1 ≠ 0 then
      headingOfBlock (c :: rest)
    else
      searchHeadingF fuel rest (c = '\n')

/-- First heading (level, stripped title) found anywhere in the text, or
`(0, [])` when there is none. -/
def searchHeading (cs : Str) : Nat × Str :=
  searchHeadingF (cs.length + 1) cs true

/-- The agno wrapper's conversion of raw chunk contents into tagged
chunks, skipping whitespace-only contents without renumbering
`chunk_id`. -/
def split_with_markdown_chunking (raw : List Str) : List Chunk :=
  raw.enum.filterMap (fun p =>
    if hasNonWs p.2 then
      let hl := searchHeading p.2
      some ⟨p.2, ⟨hl.2, [], hl.1, "markdown_chunk", some (p.1 + 1), "markdown_chunking"⟩⟩
    else none)

/-- The fallback half of `split_text`: empty or whitespace-only content
yields no chunks; otherwise the structural splitter runs and only its
whitespace-only chunks are filtered out (no length filter). -/
def fallbackSplit (content : Str) : List Chunk :=
  if !hasNonWs content then []
  else (split_markdown_by_structure content).filter (fun c => hasNonWs c.content)

/-- `split_text` from `document.py`: if the primary agno strategy is
available and returns a non-empty chunk list, use it; otherwise (agno
missing, raising, or returning nothing) use the structural fallback. -/
def split_text (agnoRaw : Option (List Str)) (content : Str) : List Chunk :=
  match agnoRaw with
  | some raw =>
    let mc := split_with_markdown_chunking raw
    if !mc.isEmpty then mc else fallbackSplit content
  | none => fallbackSplit content

/-- The chunks actually contributed by the primary strategy (empty when
agno is unavailable, raised, or produced nothing). -/
def agnoYield (agnoRaw : Option (List Str)) : List Chunk :=
  match agnoRaw with
  | some raw => split_with_markdown_chunking raw
  | none => []

/-- Lines 77-81 of `document_service.py`: run `split_text` and raise
`ValueError` (the spec's `ChunkingFailure`) when it produced no chunks,
so that no document is ever persisted with zero chunks. -/
def chunking_step (agnoRaw : Option (List Str)) (content : Str) :
    Except String (List Chunk) :=
  let chunks := split_text agnoRaw content
  if chunks.isEmpty then Except.error "document produced no chunks" else Except.ok chunks

/-! ## Vector store (`vector_db.py::MilvusService`)

The collection is a list of records plus its configured dimension.
Embedding vectors are value-opaque to every claim, so their numeric
type is `Int`; only lengths (dimensions) matter. -/

/-- An embedding vector; only its length (the dimension) is relevant. -/
abbrev Vec := List Int

/-- One record of the vector collection (`id` is auto-generated by
Milvus and not modelled). -/
structure VectorRow where
  document_id : Nat
  chunk_index : Nat
  content : Str
  metadata : ChunkMeta
  embedding : Vec
  deriving DecidableEq, Repr

/-- The state of the Milvus collection: its configured dimension and
its records.  Connection management and the process-wide loaded flag
have no bearing on any claim and are not modelled. -/
structure MilvusState where
  dimension : Nat
  rows : List VectorRow
  deriving DecidableEq, Repr

namespace MilvusService

/-- The insert loop of `MilvusService.insert`: enumerate the zipped
(chunk, embedding) pairs starting at index `i`, skip chunks whose
content is empty after trimming, and build one record per kept chunk
with `chunk_index` equal to the enumeration index. -/
def buildRows (docId : Nat) : Nat → List Chunk → List Vec → List VectorRow
  | i, c :: cs, e :: es =>
    (if hasNonWs c.content then [⟨docId, i, c.content, c.meta, e⟩] else [])
      ++ buildRows docId (i + 1) cs es
  | _, [], _ => []
  | _, _ :: _, [] => []

/-- `MilvusService.insert`: reject empty inputs and count mismatches;
when the dimension of the first embedding differs from the collection's
configured dimension, drop the collection and recreate it with the
observed dimension (discarding every stored record) before inserting;
then append the records built by the insert loop. -/
def insert (st : MilvusState) (docId : Nat) (chunks : List Chunk) (embs : List Vec) :
    Except String MilvusState :=
  match embs with
  | [] => Except.error "chunks and embeddings must be non-empty"
  | e :: _ =>
    if chunks.isEmpty then Except.error "chunks and embeddings must be non-empty"
    else if chunks.length ≠ embs.length then Except.error "chunk/embedding count mismatch"
    else
      let st1 := if e.length ≠ st.dimension then ⟨e.length, []⟩ else st
      Except.ok ⟨st1.dimension, st1.rows ++ buildRows docId 0 chunks embs⟩

/-- `MilvusService.search`, up to its validation: a query vector whose
dimension differs from the collection's configured dimension raises
`ValueError`; otherwise the call succeeds (the ranked hits themselves
come from the external ANN engine and are not modelled). -/
def search (st : MilvusState) (q : Vec) : Except String Unit :=
  if q.length ≠ st.dimension then
    Except.error "query vector dimension does not match the collection dimension"
  else Except.ok ()

end MilvusService

/-! ## Relational rows (`demo/models/schema.py`) -/

/-- A `Document` row: identity, filename, source path, chunk count. -/
structure Document where
  id : Nat
  filename : Str
  file_path : Str
  chunk_count : Nat
  deriving DecidableEq, Repr

/-- A `DocumentMapping` row: document reference, filename, relative
path, active flag, knowledge-base version. -/
structure DocumentMapping where
  document_id : Nat
  filename : Str
  file_path : Str
  is_active : Bool
  version : Nat
  deriving DecidableEq, Repr

/-! ## Version service (`version_service.py`) -/

/-- `SELECT max(version) FROM document_mappings` (`None` on an empty
table). -/
def maxVersion (db : List DocumentMapping) : Option Nat :=
  (db.map (fun m => m.version)).max?

/-- `copy_previous_version_mappings`: with no mapping rows at all,
return 0 touching nothing; otherwise find the active mappings at the
current maximum version — if there are none return 0 touching nothing,
else flip `is_active` off on each of them in place and append one fresh
active mapping per copied row at `new_version` with the same document,
filename and path, returning the number copied. -/
def copy_previous_version_mappings (db : List DocumentMapping) (new_version : Nat) :
    Nat × List DocumentMapping :=
  match maxVersion db with
  | none => (0, db)
  | some m =>
    let previous := db.filter (fun x => x.version = m && x.is_active)
    if previous.isEmpty then (0, db)
    else
      let deactivated := db.map (fun x =>
        if x.version = m && x.is_active then
          ⟨x.document_id, x.filename, x.file_path, false, x.version⟩
        else x)
      let copies : List DocumentMapping := previous.map (fun x =>
        ⟨x.document_id, x.filename, x.file_path, true, new_version⟩)
      (previous.length, deactivated ++ copies)

/-- `DocumentService._get_next_version`: one more than the current
maximum mapping version (`(max_version or 0) + 1`); a pure read of the
mapping table. -/
def get_next_version (db : List DocumentMapping) : Nat :=
  (maxVersion db).getD 0 + 1

/-- N sequential invocations of `_get_next_version` with no interleaved
operations: the mapping table is read-only for this function, so every
call sees the same table. -/
def runNextVersionCalls (db : List DocumentMapping) : Nat → List Nat
  | 0 => []
  | n + 1 => get_next_version db :: runNextVersionCalls db n

/-- N sequential upload rounds: each round calls `_get_next_version`
and then persists a mapping at the returned version before the next
round, which is what an actual upload does between two calls. -/
def runNextVersionCallsPersisting (db : List DocumentMapping) : Nat → List Nat
  | 0 => []
  | n + 1 =>
    let v := get_next_version db
    v :: runNextVersionCallsPersisting (db ++ [⟨0, [], [], true, v⟩]) n

/-! ## Ingestion coordinator (`document_service.py::DocumentService`)

The filesystem is modelled as data: a directory is the list of the
regular files below it.  The agno strategy and the embedding API are
oracle functions; `agno content = none` models "unavailable or raised"
for that input, and the embedder may fail (EmbeddingServiceError) or
return any list of vectors. -/

/-- A regular file as the service sees it: full path, basename, whether
reading it as text succeeds (a file whose UTF-8 and GBK decoding both
fail is unreadable), its decoded content, whether it lies under the
managed upload root, and its path relative to that root. -/
structure FileEntry where
  path : Str
  name : Str
  readable : Bool
  content : Str
  inUploads : Bool
  relPath : Str
  deriving DecidableEq, Repr

/-- The persisted state the coordinator touches: document rows, mapping
rows, the vector collection, and the auto-increment counter backing
`Document.id`. -/
structure SysState where
  documents : List Document
  mappings : List DocumentMapping
  milvus : MilvusState
  nextDocId : Nat
  deriving DecidableEq, Repr

/-- The external agno strategy as an oracle from file content to raw
chunk contents (`none`: unavailable or raised). -/
abbrev AgnoOracle := Str → Option (List Str)

/-- The external embedding API as an oracle; `Except.error` models
`EmbeddingServiceError`. -/
abbrev EmbedOracle := List Chunk → Except String (List Vec)

/-- `DocumentService.process_markdown_file` for a file that exists and
is a regular file (enumerated files are): read it (failing for an
undecodable file), chunk it via `chunking_step`, embed the chunks,
commit the `Document` row, insert the vectors, and finally create an
active mapping at `version` when the file lies under the upload root.
Every failure is returned together with the state as committed so far:
a failure after the document commit keeps the document row. -/
def process_markdown_file (agno : AgnoOracle) (embed : EmbedOracle)
    (f : FileEntry) (filename : Str) (st : SysState) (version : Option Nat) :
    Except String Document × SysState :=
  if !f.readable then (Except.error "file could not be decoded", st)
  else
    match chunking_step (agno f.content) f.content with
    | Except.error e => (Except.error e, st)
    | Except.ok chunks =>
      match embed chunks with
      | Except.error e => (Except.error e, st)
      | Except.ok embs =>
        let v := version.getD (get_next_version st.mappings)
        let doc : Document := ⟨st.nextDocId, filename, f.path, chunks.length⟩
        let st1 : SysState :=
          ⟨st.documents ++ [doc], st.mappings, st.milvus, st.nextDocId + 1⟩
        match MilvusService.insert st1.milvus doc.id chunks embs with
        | Except.error e => (Except.error e, st1)
        | Except.ok mil =>
          let st2 : SysState := ⟨st1.documents, st1.mappings, mil, st1.nextDocId⟩
          if f.inUploads then
            (Except.ok doc,
             ⟨st2.documents,
              st2.mappings ++ [⟨doc.id, filename, f.relPath, true, v⟩],
              st2.milvus, st2.nextDocId⟩)
          else (Except.ok doc, st2)

/-- Does the basename match the `rglob('*.md')` pattern?  fnmatch
`*.md` is a plain case-sensitive suffix test. -/
def hasMdName (name : Str) : Bool :=
  ".md".data.isSuffixOf name

/-- `DocumentService._find_markdown_files` over a directory: the
recursively found regular `*.md` files, sorted by full path —
`sorted(md_files)`, Python's deterministic lexicographic string sort. -/
def find_markdown_files (dir : List FileEntry) : List FileEntry :=
  (dir.filter (fun f => hasMdName f.name)).insertionSort
    (fun a b => lexLe a.path b.path = true)

/-- One per-file outcome record of a batch run. -/
structure ResultEntry where
  success : Bool
  document_id : Option Nat
  filename : Str
  chunk_count : Nat
  file_path : Str
  error : Option String
  deriving DecidableEq, Repr

/-- The batch loop of `process_markdown_directory`: process the files in
order, each under the shared `version`, catching any per-file failure as
a `success = false` record with the error message, and threading the
persisted state through. -/
def processFiles (agno : AgnoOracle) (embed : EmbedOracle) :
    List FileEntry → SysState → Nat → List ResultEntry × SysState
  | [], st, _ => ([], st)
  | f :: fs, st, v =>
    let r := process_markdown_file agno embed f f.name st (some v)
    let entry : ResultEntry :=
      match r.1 with
      | Except.ok d => ⟨true, some d.id, d.filename, d.chunk_count, f.path, none⟩
      | Except.error e => ⟨false, none, f.name, 0, f.path, some e⟩
    let rest := processFiles agno embed fs r.2 v
    (entry :: rest.1, rest.2)

/-- `DocumentService.process_markdown_directory` on a directory: find
the markdown files (raising `ValueError` when there are none), pick the
shared version (the next one when none is supplied), and run the batch
loop. -/
def process_markdown_directory (agno : AgnoOracle) (embed : EmbedOracle)
    (dir : List FileEntry) (st : SysState) (version : Option Nat) :
    Except String (List ResultEntry) × SysState :=
  let md := find_markdown_files dir
  if md.isEmpty then (Except.error "no markdown files found", st)
  else
    let v := version.getD (get_next_version st.mappings)
    let r := processFiles agno embed md st v
    (Except.ok r.1, r.2)

/-- The summary dictionary returned by `rebuild_knowledge_base`. -/
structure RebuildSummary where
  version : Nat
  total_files : Nat
  success_count : Nat
  fail_count : Nat
  total_chunks : Nat
  results : List ResultEntry
  deriving DecidableEq, Repr

/-- `DocumentService.rebuild_knowledge_base`: validate the path, take
the next version number, mark every existing mapping inactive (all
rows, not only the active ones at the maximum version — no
copy-forward), drop and recreate the vector collection, re-process the
whole directory under the new version, and aggregate the outcomes.
`pathExists`/`isDir` model the two filesystem checks. -/
def rebuild_knowledge_base (agno : AgnoOracle) (embed : EmbedOracle)
    (pathExists isDir : Bool) (dir : List FileEntry) (st : SysState) :
    Except String RebuildSummary × SysState :=
  if !pathExists then (Except.error "path does not exist", st)
  else if !isDir then (Except.error "path is not a directory", st)
  else
    let new_version := get_next_version st.mappings
    let st1 : SysState :=
      ⟨st.documents,
       st.mappings.map (fun m =>
         ⟨m.document_id, m.filename, m.file_path, false, m.version⟩),
       ⟨st.milvus.dimension, []⟩, st.nextDocId⟩
    match process_markdown_directory agno embed dir st1 (some new_version) with
    | (Except.error e, st2) => (Except.error e, st2)
    | (Except.ok results, st2) =>
      let success_count := (results.filter (fun r => r.success)).length
      let fail_count := results.length - success_count
      let total_chunks :=
        ((results.filter (fun r => r.success)).map (fun r => r.chunk_count)).sum
      (Except.ok ⟨new_version, results.length, success_count, fail_count,
                  total_chunks, results⟩, st2)

/-! ## Status notifier (`sse_service.py::stream_upload_status`)

The stream polls the mapping/document join once per second; each poll's
query result is the list of `(document_id, filename)` pairs of active
mappings at the target version whose document has `chunk_count > 0`.  A
poll is modelled by that list, or by `none` when the query raised (the
loop logs and retries).  The trace of polls the stream lives through is
the input; the model returns the subjects of the emitted "finished"
events in order. -/

/-- The subject of one per-file completion event. -/
abbrev PairKey := Nat × Str

/-- One poll body: emit, in order, every queried pair not yet in the
seen-set, inserting each into the seen-set as it is emitted (so a pair
repeated inside a single query result is emitted once as well).
Returns the emitted pairs and the updated seen-set. -/
def processPoll (seen : List PairKey) : List PairKey → List PairKey × List PairKey
  | [] => ([], seen)
  | p :: ps =>
    if p ∈ seen then processPoll seen ps
    else
      let r := processPoll (p :: seen) ps
      (p :: r.1, r.2)

/-- The polling loop of `stream_upload_status`: bounded by the hard time
ceiling (3600 polls at one per second), resetting the idle counter on
every poll that emitted something, breaking after 300 consecutive idle
polls; an erroring poll (`none`) emits nothing and leaves the idle
counter untouched.  Output: the emitted event subjects in order. -/
def streamUploadGo : List (Option (List PairKey)) → List PairKey → Nat → Nat → List PairKey
  | [], _, _, _ => []
  | poll :: rest, seen, noNew, elapsed =>
    if 3600 ≤ elapsed then []
    else
      match poll with
      | none => streamUploadGo rest seen noNew (elapsed + 1)
      | some qs =>
        let r := processPoll seen qs
        if r.1.isEmpty then
          if 300 ≤ noNew + 1 then []
          else streamUploadGo rest r.2 (noNew + 1) (elapsed + 1)
        else r.1 ++ streamUploadGo rest r.2 0 (elapsed + 1)

/-- `SSEService.stream_upload_status` for a given trace of poll
results: the subjects of all "finished" events emitted over the life of
the stream. -/
def stream_upload_status (polls : List (Option (List PairKey))) : List PairKey :=
  streamUploadGo polls [] 0 0

/-! ## Helper lemmas -/

theorem foldl_max_le_iff (l : List Nat) (a : Nat) :
    a ≤ l.foldl max a ∧ ∀ x ∈ l, x ≤ l.foldl max a := by
  induction l generalizing a with
  | nil => simp
  | cons b t ih =>
    refine ⟨le_trans (le_max_left a b) (ih (max a b)).1, ?_⟩
    intro x hx
    rcases List.mem_cons.mp hx with rfl | hx
    · exact le_trans (le_max_right a x) (ih (max a x)).1
    · exact (ih (max a b)).2 _ hx

theorem mem_le_max_getD {l : List Nat} {v : Nat} (h : v ∈ l) : v ≤ l.max?.getD 0 := by
  cases l with
  | nil => cases h
  | cons a t =>
    have hfold := foldl_max_le_iff t a
    have : (a :: t).max? = some (t.foldl max a) := by
      simp [List.max?]
    rw [this]
    rcases List.mem_cons.mp h with rfl | h
    · exact hfold.1
    · exact hfold.2 _ h

/-- Boolean "strictly increasing" on a list of naturals. -/
def strictIncrB : List Nat → Bool
  | a :: b :: rest => a < b && strictIncrB (b :: rest)
  | _ => true

/-! ## Claim C1 -/

/-- C1.  `copyForward(newVersion)`: with no mapping rows at all it
returns 0 and performs no writes; otherwise, with K active mappings at
the current maximum version, it returns K, flips `is_active` off on
exactly those K rows, and appends K fresh active rows at `newVersion`,
each carrying the same (document, filename, path) as the row it copies
(the K = 0 case likewise writes nothing). -/
theorem copy_forward_spec (db : List DocumentMapping) (newv : Nat) :
    (db = [] → copy_previous_version_mappings db newv = (0, db)) ∧
    (∀ M, maxVersion db = some M →
      (copy_previous_version_mappings db newv).1 =
        (db.filter (fun x => x.version = M && x.is_active)).length ∧
      (copy_previous_version_mappings db newv).2 =
        db.map (fun x => if x.version = M && x.is_active then
            ⟨x.document_id, x.filename, x.file_path, false, x.version⟩ else x)
        ++ (db.filter (fun x => x.version = M && x.is_active)).map (fun x =>
            (⟨x.document_id, x.filename, x.file_path, true, newv⟩ : DocumentMapping))) := by
  constructor
  · rintro rfl
    rfl
  · intro M hM
    by_cases hprev : (db.filter (fun x => x.version = M && x.is_active)).isEmpty
    · have hnil : db.filter (fun x => x.version = M && x.is_active) = [] :=
        List.isEmpty_iff.mp hprev
      have hid : db.map (fun x => if x.version = M && x.is_active then
          (⟨x.document_id, x.filename, x.file_path, false, x.version⟩ : DocumentMapping)
          else x) = db := by
        have := List.filter_eq_nil_iff.mp hnil
        calc db.map (fun x => if x.version = M && x.is_active then
              (⟨x.document_id, x.filename, x.file_path, false, x.version⟩ : DocumentMapping)
              else x)
            = db.map id := by
              apply List.map_congr_left
              intro a ha
              simp [this a ha]
          _ = db := List.map_id db
      simp only [copy_previous_version_mappings, hM, hnil, hid]
      simp
    · simp only [copy_previous_version_mappings, hM, hprev]
      simp

/-- Witness for C1 on a concrete base: versions 1 and 2 exist, two of
the three version-2 mappings are active. -/
theorem copy_forward_spec_witness :
    maxVersion
      [⟨1, ['a'], ['p'], true, 2⟩, ⟨2, ['b'], ['q'], false, 2⟩,
       ⟨3, ['c'], ['r'], true, 2⟩, ⟨4, ['d'], ['s'], true, 1⟩] = some 2 ∧
    ((copy_previous_version_mappings
        [⟨1, ['a'], ['p'], true, 2⟩, ⟨2, ['b'], ['q'], false, 2⟩,
         ⟨3, ['c'], ['r'], true, 2⟩, ⟨4, ['d'], ['s'], true, 1⟩] 3).1 =
      (([⟨1, ['a'], ['p'], true, 2⟩, ⟨2, ['b'], ['q'], false, 2⟩,
         ⟨3, ['c'], ['r'], true, 2⟩, ⟨4, ['d'], ['s'], true, 1⟩] :
          List DocumentMapping).filter (fun x => x.version = 2 && x.is_active)).length ∧
     (copy_previous_version_mappings
        [⟨1, ['a'], ['p'], true, 2⟩, ⟨2, ['b'], ['q'], false, 2⟩,
         ⟨3, ['c'], ['r'], true, 2⟩, ⟨4, ['d'], ['s'], true, 1⟩] 3).2 =
      ([⟨1, ['a'], ['p'], true, 2⟩, ⟨2, ['b'], ['q'], false, 2⟩,
        ⟨3, ['c'], ['r'], true, 2⟩, ⟨4, ['d'], ['s'], true, 1⟩] :
          List DocumentMapping).map (fun x => if x.version = 2 && x.is_active then
            ⟨x.document_id, x.filename, x.file_path, false, x.version⟩ else x)
        ++ (([⟨1, ['a'], ['p'], true, 2⟩, ⟨2, ['b'], ['q'], false, 2⟩,
              ⟨3, ['c'], ['r'], true, 2⟩, ⟨4, ['d'], ['s'], true, 1⟩] :
            List DocumentMapping).filter (fun x => x.version = 2 && x.is_active)).map
            (fun x => (⟨x.document_id, x.filename, x.file_path, true, 3⟩ : DocumentMapping))) :=
  ⟨by decide,
   (copy_forward_spec
      [⟨1, ['a'], ['p'], true, 2⟩, ⟨2, ['b'], ['q'], false, 2⟩,
       ⟨3, ['c'], ['r'], true, 2⟩, ⟨4, ['d'], ['s'], true, 1⟩] 3).2 2 (by decide)⟩

/-! ## Claim C2

`_get_next_version` performs only a `SELECT max(version)`; it writes
nothing.  Repeated calls with no interleaved operations therefore see
the same table and return the same value, so the sequence is not
strictly increasing as soon as N ≥ 2. -/

/-- C2 counterexample.  On an empty knowledge base, two sequential
`nextVersion()` calls with no interleaved operations both return 1: the
returned integers are not strictly increasing. -/
theorem next_version_calls_not_strictly_increasing :
    runNextVersionCalls ([] : List DocumentMapping) 2 = [1, 1] ∧
    strictIncrB (runNextVersionCalls ([] : List DocumentMapping) 2) = false := by
  constructor <;> rfl

/-- C2 as amended.  Every one of N sequential `nextVersion()` calls
returns the same integer, one more than the maximum version existing
before the sequence (0 when none exists) — hence each return value is
strictly greater than that pre-existing maximum, but the sequence is
constant rather than strictly increasing; the N values are strictly
increasing when a mapping at the returned version is persisted between
consecutive calls, as an upload does. -/
theorem next_version_calls_spec (db : List DocumentMapping) (n : Nat) :
    runNextVersionCalls db n = List.replicate n ((maxVersion db).getD 0 + 1) ∧
    (∀ x ∈ runNextVersionCalls db n, (maxVersion db).getD 0 < x) ∧
    strictIncrB (runNextVersionCallsPersisting db n) = true := by
  refine ⟨?_, ?_, ?_⟩
  · induction n with
    | zero => rfl
    | succ k ih => simpa [runNextVersionCalls, List.replicate_succ, get_next_version] using ih
  · intro x hx
    induction n with
    | zero => cases hx
    | succ k ih =>
      rcases List.mem_cons.mp hx with rfl | hx'
      · simp [get_next_version]
      · exact ih hx'
  · induction n generalizing db with
    | zero => rfl
    | succ k ih =>
      cases k with
      | zero => rfl
      | succ j =>
        have hlt : get_next_version db <
            get_next_version (db ++ [⟨0, [], [], true, get_next_version db⟩]) := by
          have hmem : get_next_version db ∈
              ((db ++ [(⟨0, [], [], true, get_next_version db⟩ : DocumentMapping)]).map
                (fun m => m.version)) := by
            simp
          have := mem_le_max_getD hmem
          simp only [get_next_version, maxVersion] at *
          omega
        have ihx := ih (db ++ [⟨0, [], [], true, get_next_version db⟩])
        have hunf : ∀ (d : List DocumentMapping) (m : Nat),
            runNextVersionCallsPersisting d (m + 1) =
              get_next_version d ::
                runNextVersionCallsPersisting
                  (d ++ [⟨0, [], [], true, get_next_version d⟩]) m := by
          intro d m; rfl
        rw [hunf] at ihx
        rw [hunf]
        rw [hunf]
        show (decide (get_next_version db <
            get_next_version (db ++ [⟨0, [], [], true, get_next_version db⟩])) &&
          strictIncrB _) = true
        rw [ihx, decide_eq_true hlt]
        rfl

/-! ## Claim C4 -/

/-- C4.  An `insert` whose observed embedding dimension differs from the
collection's configured dimension succeeds by dropping the collection
(discarding every stored record), adopting the observed dimension, and
inserting the new batch; afterwards `search` succeeds for query vectors
of the new dimension and fails with `ValueError` for vectors of the old
one. -/
theorem milvus_insert_self_heals (st : MilvusState) (docId : Nat)
    (chunks : List Chunk) (embs : List Vec) (e : Vec) (es : List Vec)
    (hembs : embs = e :: es) (hch : chunks.isEmpty = false)
    (hlen : chunks.length = embs.length) (hdim : e.length ≠ st.dimension) :
    MilvusService.insert st docId chunks embs =
      Except.ok ⟨e.length, MilvusService.buildRows docId 0 chunks embs⟩ ∧
    (∀ q : Vec, q.length = e.length →
      MilvusService.search ⟨e.length, MilvusService.buildRows docId 0 chunks embs⟩ q =
        Except.ok ()) ∧
    (∀ q : Vec, q.length = st.dimension →
      MilvusService.search ⟨e.length, MilvusService.buildRows docId 0 chunks embs⟩ q =
        Except.error "query vector dimension does not match the collection dimension") := by
  subst hembs
  refine ⟨?_, ?_, ?_⟩
  · simp [MilvusService.insert, hch, hlen, hdim]
  · intro q hq
    simp [MilvusService.search, hq]
  · intro q hq
    have : q.length ≠ e.length := by rw [hq]; exact fun h => hdim h.symm
    simp [MilvusService.search, this]

/-- Witness for C4: a collection configured at dimension 4 holding one
record receives a 2-dimensional batch. -/
theorem milvus_insert_self_heals_witness :
    ([([1, 2, 3, 4] : Vec)] = [([1, 2, 3, 4] : Vec)]) ∧
    (([⟨['x'], fallbackMeta 0⟩] : List Chunk).isEmpty = false) ∧
    (([⟨['x'], fallbackMeta 0⟩] : List Chunk).length = [([1, 2, 3, 4] : Vec)].length) ∧
    (([1, 2, 3, 4] : Vec).length ≠ (⟨2, [⟨9, 0, ['o'], fallbackMeta 0, [5, 6]⟩]⟩ :
        MilvusState).dimension) ∧
    (MilvusService.insert ⟨2, [⟨9, 0, ['o'], fallbackMeta 0, [5, 6]⟩]⟩ 7
        [⟨['x'], fallbackMeta 0⟩] [[1, 2, 3, 4]] =
      Except.ok ⟨([1, 2, 3, 4] : Vec).length,
        MilvusService.buildRows 7 0 [⟨['x'], fallbackMeta 0⟩] [[1, 2, 3, 4]]⟩) :=
  ⟨rfl, rfl, rfl, by decide,
   (milvus_insert_self_heals ⟨2, [⟨9, 0, ['o'], fallbackMeta 0, [5, 6]⟩]⟩ 7
      [⟨['x'], fallbackMeta 0⟩] [[1, 2, 3, 4]] [1, 2, 3, 4] [] rfl rfl rfl (by decide)).1⟩

/-! ## Claim C10 -/

theorem buildRows_eq_enumFrom (docId : Nat) (k : Nat) :
    ∀ (chunks : List Chunk) (embs : List Vec),
      MilvusService.buildRows docId k chunks embs =
        ((chunks.zip embs).enumFrom k).filterMap (fun p =>
          if hasNonWs p.2.1.content then
            some ⟨docId, p.1, p.2.1.content, p.2.1.meta, p.2.2⟩
          else none) := by
  intro chunks
  induction chunks generalizing k with
  | nil => intro embs; simp [MilvusService.buildRows]
  | cons c cs ih =>
    intro embs
    cases embs with
    | nil => simp [MilvusService.buildRows]
    | cons e es =>
      by_cases hws : hasNonWs c.content
      · simp [MilvusService.buildRows, List.zip, List.zip_cons_cons, List.enumFrom,
              List.filterMap_cons, hws, ih (k + 1)]
      · simp [MilvusService.buildRows, List.zip, List.zip_cons_cons, List.enumFrom,
              List.filterMap_cons, hws, ih (k + 1)]

theorem buildRows_index_ge (docId : Nat) :
    ∀ (k : Nat) (chunks : List Chunk) (embs : List Vec) (r : VectorRow),
      r ∈ MilvusService.buildRows docId k chunks embs → k ≤ r.chunk_index := by
  intro k chunks
  induction chunks generalizing k with
  | nil => intro embs r hr; simp [MilvusService.buildRows] at hr
  | cons c cs ih =>
    intro embs r hr
    cases embs with
    | nil => simp [MilvusService.buildRows] at hr
    | cons e es =>
      simp only [MilvusService.buildRows] at hr
      rcases List.mem_append.mp hr with hr | hr
      · by_cases hws : hasNonWs c.content
        · simp [hws] at hr
          subst hr
          rfl
        · simp [hws] at hr
      · exact le_trans (Nat.le_succ k) (ih (k + 1) es r hr)

theorem buildRows_index_sorted (docId : Nat) :
    ∀ (k : Nat) (chunks : List Chunk) (embs : List Vec),
      List.Pairwise (· < ·)
        ((MilvusService.buildRows docId k chunks embs).map (fun r => r.chunk_index)) := by
  intro k chunks
  induction chunks generalizing k with
  | nil => intro embs; simp [MilvusService.buildRows]
  | cons c cs ih =>
    intro embs
    cases embs with
    | nil => simp [MilvusService.buildRows]
    | cons e es =>
      by_cases hws : hasNonWs c.content
      · simp only [MilvusService.buildRows, hws, if_true, List.singleton_append,
                   List.map_cons, List.pairwise_cons]
        refine ⟨?_, ih (k + 1) es⟩
        intro b hb
        rcases List.mem_map.mp hb with ⟨r, hr, rfl⟩
        exact lt_of_lt_of_le (Nat.lt_succ_self k) (buildRows_index_ge docId (k + 1) cs es r hr)
      · simp only [MilvusService.buildRows, hws, if_false, List.nil_append]
        exact ih (k + 1) es

theorem buildRows_content_of_mem (docId : Nat) :
    ∀ (k : Nat) (chunks : List Chunk) (embs : List Vec) (r : VectorRow),
      r ∈ MilvusService.buildRows docId k chunks embs →
      ∃ j, r.chunk_index = k + j ∧
        ∃ hj : j < chunks.length,
          (chunks.get ⟨j, hj⟩).content = r.content ∧ hasNonWs r.content = true := by
  intro k chunks
  induction chunks generalizing k with
  | nil => intro embs r hr; simp [MilvusService.buildRows] at hr
  | cons c cs ih =>
    intro embs r hr
    cases embs with
    | nil => simp [MilvusService.buildRows] at hr
    | cons e es =>
      simp only [MilvusService.buildRows] at hr
      rcases List.mem_append.mp hr with hr | hr
      · by_cases hws : hasNonWs c.content
        · simp [hws] at hr
          subst hr
          exact ⟨0, by simp, by simp, by simpa using hws⟩
        · simp [hws] at hr
      · obtain ⟨j, hj1, hj2, hj3, hj4⟩ := ih (k + 1) es r hr
        exact ⟨j + 1, by omega, by simpa using hj2, by simpa using hj3, hj4⟩

/-- C10.  The records stored by a successful `insert`: one record per
(chunk, embedding) pair whose content has a non-whitespace character,
with `chunk_index` equal to the pair's zero-based position in the input
list (whitespace-only chunks are skipped without renumbering, so the
stored indices are strictly increasing yet possibly non-contiguous, and
each index points back at its own chunk). -/
theorem insert_chunk_index_spec (docId : Nat) (chunks : List Chunk) (embs : List Vec) :
    (MilvusService.buildRows docId 0 chunks embs =
      (chunks.zip embs).enum.filterMap (fun p =>
        if hasNonWs p.2.1.content then
          some ⟨docId, p.1, p.2.1.content, p.2.1.meta, p.2.2⟩
        else none)) ∧
    List.Pairwise (· < ·)
      ((MilvusService.buildRows docId 0 chunks embs).map (fun r => r.chunk_index)) ∧
    (∀ r ∈ MilvusService.buildRows docId 0 chunks embs,
      ∃ hj : r.chunk_index < chunks.length,
        (chunks.get ⟨r.chunk_index, hj⟩).content = r.content ∧
        hasNonWs r.content = true) ∧
    (∀ (st st' : MilvusState),
      MilvusService.insert st docId chunks embs = Except.ok st' →
      ∃ pre, st'.rows = pre ++ MilvusService.buildRows docId 0 chunks embs) := by
  refine ⟨?_, buildRows_index_sorted docId 0 chunks embs, ?_, ?_⟩
  · rw [buildRows_eq_enumFrom]
    rfl
  · intro r hr
    obtain ⟨j, hj1, hj2, hj3, hj4⟩ := buildRows_content_of_mem docId 0 chunks embs r hr
    have : r.chunk_index = j := by omega
    subst this
    exact ⟨hj2, hj3, hj4⟩
  · intro st st' hok
    cases embs with
    | nil => simp [MilvusService.insert] at hok
    | cons e es =>
      by_cases hch : chunks.isEmpty
      · simp [MilvusService.insert, hch] at hok
      · by_cases hlen : chunks.length = (e :: es).length
        · simp only [MilvusService.insert, hch, hlen] at hok
          simp at hok
          by_cases hd : e.length = st.dimension
          · exact ⟨st.rows, by rw [← hok]; simp [hd]⟩
          · exact ⟨[], by rw [← hok]; simp [hd]⟩
        · simp only [List.length_cons] at hlen
          simp [MilvusService.insert, hch, hlen] at hok

/-- Witness for C10's `insert` clause on a concrete three-chunk batch
whose middle chunk is whitespace-only. -/
theorem insert_chunk_index_spec_witness :
    (MilvusService.insert ⟨2, []⟩ 7
        [⟨['x'], fallbackMeta 0⟩, ⟨[' '], fallbackMeta 1⟩, ⟨['y'], fallbackMeta 2⟩]
        [[1, 2], [3, 4], [5, 6]] =
      Except.ok ⟨2, [⟨7, 0, ['x'], fallbackMeta 0, [1, 2]⟩,
                     ⟨7, 2, ['y'], fallbackMeta 2, [5, 6]⟩]⟩) ∧
    (∃ pre, (⟨2, [⟨7, 0, ['x'], fallbackMeta 0, [1, 2]⟩,
                  ⟨7, 2, ['y'], fallbackMeta 2, [5, 6]⟩]⟩ : MilvusState).rows =
      pre ++ MilvusService.buildRows 7 0
        [⟨['x'], fallbackMeta 0⟩, ⟨[' '], fallbackMeta 1⟩, ⟨['y'], fallbackMeta 2⟩]
        [[1, 2], [3, 4], [5, 6]]) :=
  ⟨rfl,
   (insert_chunk_index_spec 7
      [⟨['x'], fallbackMeta 0⟩, ⟨[' '], fallbackMeta 1⟩, ⟨['y'], fallbackMeta 2⟩]
      [[1, 2], [3, 4], [5, 6]]).2.2.2 ⟨2, []⟩
      ⟨2, [⟨7, 0, ['x'], fallbackMeta 0, [1, 2]⟩, ⟨7, 2, ['y'], fallbackMeta 2, [5, 6]⟩]⟩
      rfl⟩

/-! ## Claim C9 -/

theorem processPoll_spec (qs seen : List PairKey) :
    (processPoll seen qs).1.Nodup ∧
    (∀ p ∈ (processPoll seen qs).1, p ∉ seen) ∧
    (∀ p, p ∈ (processPoll seen qs).2 ↔ p ∈ seen ∨ p ∈ (processPoll seen qs).1) := by
  induction qs generalizing seen with
  | nil => simp [processPoll]
  | cons q qs ih =>
    by_cases hq : q ∈ seen
    · simpa [processPoll, hq] using ih seen
    · have ihq := ih (q :: seen)
      simp only [processPoll, hq, if_neg, if_false]
      refine ⟨?_, ?_, ?_⟩
      · refine List.nodup_cons.mpr ⟨?_, ihq.1⟩
        intro hmem
        exact (ihq.2.1 q hmem) (List.mem_cons_self q seen)
      · intro p hp
        rcases List.mem_cons.mp hp with rfl | hp'
        · exact hq
        · intro hpseen
          exact (ihq.2.1 p hp') (List.mem_cons_of_mem q hpseen)
      · intro p
        constructor
        · intro hp
          rcases (ihq.2.2 p).mp hp with hp' | hp'
          · rcases List.mem_cons.mp hp' with rfl | hp''
            · exact Or.inr (List.mem_cons_self p _)
            · exact Or.inl hp''
          · exact Or.inr (List.mem_cons_of_mem q hp')
        · intro hp
          rcases hp with hp' | hp'
          · exact (ihq.2.2 p).mpr (Or.inl (List.mem_cons_of_mem q hp'))
          · rcases List.mem_cons.mp hp' with rfl | hp''
            · exact (ihq.2.2 p).mpr (Or.inl (List.mem_cons_self p seen))
            · exact (ihq.2.2 p).mpr (Or.inr hp'')

theorem streamUploadGo_spec (polls : List (Option (List PairKey))) :
    ∀ (seen : List PairKey) (noNew elapsed : Nat),
      (streamUploadGo polls seen noNew elapsed).Nodup ∧
      ∀ p ∈ streamUploadGo polls seen noNew elapsed, p ∉ seen := by
  induction polls with
  | nil => intro seen noNew elapsed; simp [streamUploadGo]
  | cons poll rest ih =>
    intro seen noNew elapsed
    by_cases helapsed : 3600 ≤ elapsed
    · simp [streamUploadGo, helapsed]
    · cases poll with
      | none =>
        simpa [streamUploadGo, helapsed] using ih seen noNew (elapsed + 1)
      | some qs =>
        have hpoll := processPoll_spec qs seen
        by_cases hempty : (processPoll seen qs).1.isEmpty
        · by_cases hidle : 300 ≤ noNew + 1
          · simp [streamUploadGo, helapsed, hempty, hidle]
          · have ihr := ih (processPoll seen qs).2 (noNew + 1) (elapsed + 1)
            simp only [streamUploadGo, helapsed, hempty, hidle, if_neg, if_false,
                       if_true, not_false_eq_true]
            refine ⟨ihr.1, ?_⟩
            intro p hp hpseen
            exact ihr.2 p hp ((hpoll.2.2 p).mpr (Or.inl hpseen))
        · have ihr := ih (processPoll seen qs).2 0 (elapsed + 1)
          simp only [streamUploadGo, helapsed, hempty, if_neg, if_false]
          refine ⟨?_, ?_⟩
          · refine List.Nodup.append hpoll.1 ihr.1 ?_
            intro p hp hp'
            exact ihr.2 p hp' ((hpoll.2.2 p).mpr (Or.inr hp))
          · intro p hp hpseen
            rcases List.mem_append.mp hp with hp' | hp'
            · exact hpoll.2.1 p hp' hpseen
            · exact ihr.2 p hp' ((hpoll.2.2 p).mpr (Or.inl hpseen))

/-- C9.  Over the whole life of a `stream_upload_status` stream — any
trace of poll results, including erroring polls, idle stretches and the
two loop ceilings — the emitted "finished" events have pairwise
distinct (document, filename) subjects: once a pair's completion event
has been emitted, no later poll emits another event for that pair. -/
theorem stream_upload_status_dedup (polls : List (Option (List PairKey))) :
    (stream_upload_status polls).Nodup :=
  (streamUploadGo_spec polls [] 0 0).1

/-! ## Chunking lemmas -/

theorem chunkFilterMap_map_content (f : Nat → Str → ChunkMeta) :
    ∀ (l : List Str) (k : Nat),
      (((l.enumFrom k).filterMap (fun p =>
          if hasNonWs p.2 then some (⟨p.2, f p.1 p.2⟩ : Chunk) else none)).map
        (fun c => c.content)) = l.filter hasNonWs := by
  intro l
  induction l with
  | nil => intro k; rfl
  | cons s t ih =>
    intro k
    by_cases hws : hasNonWs s
    · simp [List.enumFrom, List.filterMap_cons, hws, ih (k + 1)]
    · simp [List.enumFrom, List.filterMap_cons, hws, ih (k + 1)]

theorem chunkFilterMap_content_mem (f : Nat → Str → ChunkMeta) (l : List Str) (k : Nat)
    (c : Chunk)
    (hc : c ∈ (l.enumFrom k).filterMap (fun p =>
        if hasNonWs p.2 then some (⟨p.2, f p.1 p.2⟩ : Chunk) else none)) :
    c.content ∈ l.filter hasNonWs := by
  rw [← chunkFilterMap_map_content f l k]
  exact List.mem_map.mpr ⟨c, hc, rfl⟩

theorem chunkFilterMap_nonWs (f : Nat → Str → ChunkMeta) (l : List Str) (k : Nat)
    (c : Chunk)
    (hc : c ∈ (l.enumFrom k).filterMap (fun p =>
        if hasNonWs p.2 then some (⟨p.2, f p.1 p.2⟩ : Chunk) else none)) :
    hasNonWs c.content = true :=
  (List.mem_filter.mp (chunkFilterMap_content_mem f l k c hc)).2

theorem windowChunksF_le (size step : Nat) :
    ∀ (fuel : Nat) (cs : Str), cs.length ≤ fuel + size →
      ∀ p ∈ windowChunksF size step fuel cs, p.length ≤ size := by
  intro fuel
  induction fuel with
  | zero =>
    intro cs hcs p hp
    simp [windowChunksF] at hp
    subst hp
    simpa using hcs
  | succ f ih =>
    intro cs hcs p hp
    by_cases hlen : cs.length ≤ size
    · simp [windowChunksF, hlen] at hp
      subst hp
      exact hlen
    · simp only [windowChunksF, hlen, if_neg, if_false] at hp
      rcases List.mem_cons.mp hp with rfl | hp'
      · simp [Nat.min_le_left]
      · refine ih (cs.drop (max 1 step)) ?_ p hp'
        simp only [List.length_drop]
        omega

theorem recursiveSplit_le (size ov : Nat) :
    ∀ (seps : List Str) (cs : Str) (p : Str),
      p ∈ recursiveSplit size ov seps cs → p.length ≤ size := by
  intro seps
  induction seps with
  | nil =>
    intro cs p hp
    by_cases hlen : cs.length ≤ size
    · simp [recursiveSplit, hlen] at hp
      subst hp
      exact hlen
    · simp only [recursiveSplit, hlen, if_neg, if_false] at hp
      exact windowChunksF_le size (size - ov) cs.length cs (by omega) p hp
  | cons sep rest ih =>
    intro cs p hp
    by_cases hlen : cs.length ≤ size
    · simp [recursiveSplit, hlen] at hp
      subst hp
      exact hlen
    · by_cases hsep : sep = []
      · simp only [recursiveSplit, hlen, hsep, if_neg, if_false, if_true] at hp
        exact windowChunksF_le size (size - ov) cs.length cs (by omega) p hp
      · simp only [recursiveSplit, hlen, hsep, if_neg, if_false] at hp
        rcases List.mem_flatMap.mp hp with ⟨part, _, hpart⟩
        exact ih part p hpart

theorem processBlock_le (m : Str) :
    ∀ ch ∈ processBlock m, ch.content.length ≤ CHUNK_SIZE := by
  intro ch hch
  by_cases hblock : pyStrip m = []
  · simp [processBlock, hblock] at hch
  · by_cases hbig : CHUNK_SIZE < (pyStrip m).length
    · by_cases hsub : (scanHeadings 2 (pyStrip m)).isEmpty
      · simp only [processBlock, hblock, hbig, hsub, if_neg, if_false, if_true] at hch
        have := chunkFilterMap_content_mem
          (fun i _ => ⟨(headingOfBlock (pyStrip m)).2, [], (headingOfBlock (pyStrip m)).1,
            "section_part", some i, "markdown_structure+recursive"⟩)
          (recursiveSplit CHUNK_SIZE CHUNK_OVERLAP SEPARATORS (pyStrip m)) 0 ch hch
        have hmem := List.mem_of_mem_filter this
        exact recursiveSplit_le CHUNK_SIZE CHUNK_OVERLAP SEPARATORS (pyStrip m)
          ch.content hmem
      · simp only [processBlock, hblock, hbig, hsub, if_neg, if_false] at hch
        rcases List.mem_flatMap.mp hch with ⟨sm, _, hsm⟩
        by_cases hsubbig : CHUNK_SIZE < (pyStrip sm).length
        · simp only [hsubbig, if_true] at hsm
          have := chunkFilterMap_content_mem
            (fun i _ => ⟨(headingOfBlock (pyStrip m)).2, subTitleOf (pyStrip sm),
              (headingOfBlock (pyStrip m)).1, "section_part", some i,
              "markdown_structure+recursive"⟩)
            (recursiveSplit CHUNK_SIZE CHUNK_OVERLAP SEPARATORS (pyStrip sm)) 0 ch hsm
          have hmem := List.mem_of_mem_filter this
          exact recursiveSplit_le CHUNK_SIZE CHUNK_OVERLAP SEPARATORS (pyStrip sm)
            ch.content hmem
        · simp only [hsubbig, if_neg, if_false] at hsm
          simp at hsm
          subst hsm
          simpa using le_of_not_lt hsubbig
    · simp only [processBlock, hblock, hbig, if_neg, if_false] at hch
      simp at hch
      subst hch
      simpa using le_of_not_lt hbig

theorem split_markdown_by_structure_le (content : Str) :
    ∀ ch ∈ split_markdown_by_structure content, ch.content.length ≤ CHUNK_SIZE := by
  intro ch hch
  by_cases hnws : hasNonWs content
  · simp only [split_markdown_by_structure, hnws, Bool.not_true, if_neg, if_false,
               Bool.false_eq_true] at hch
    set tops := if (scanHeadings 1 content).isEmpty then scanHeadings 2 content
      else scanHeadings 1 content with htops
    by_cases hempty : tops.isEmpty
    · simp only [hempty, if_true] at hch
      have := chunkFilterMap_content_mem (fun i _ => fallbackMeta i)
        (recursiveSplit CHUNK_SIZE CHUNK_OVERLAP SEPARATORS content) 0 ch hch
      exact recursiveSplit_le CHUNK_SIZE CHUNK_OVERLAP SEPARATORS content ch.content
        (List.mem_of_mem_filter this)
    · simp only [hempty, if_neg, if_false] at hch
      rcases List.mem_flatMap.mp hch with ⟨m, _, hm⟩
      exact processBlock_le m ch hm
  · simp [split_markdown_by_structure, hnws] at hch

theorem windowChunksF_head (size step fuel : Nat) (cs : Str) :
    (windowChunksF size step fuel cs).head? = some cs ∨
    (windowChunksF size step fuel cs).head? = some (cs.take size) := by
  cases fuel with
  | zero => left; rfl
  | succ f =>
    by_cases hlen : cs.length ≤ size
    · left; simp [windowChunksF, hlen]
    · right; simp [windowChunksF, hlen]

theorem windowChunksF_overlap (size ov : Nat) (hov : ov < size) :
    ∀ (fuel : Nat) (cs : Str),
      List.Chain' (fun a b => a.drop (size - ov) = b.take ov)
        (windowChunksF size (size - ov) fuel cs) := by
  intro fuel
  induction fuel with
  | zero => intro cs; simp [windowChunksF]
  | succ f ih =>
    intro cs
    by_cases hlen : cs.length ≤ size
    · simp [windowChunksF, hlen]
    · simp only [windowChunksF, hlen, if_neg, if_false]
      have hstep : max 1 (size - ov) = size - ov := by omega
      rw [hstep]
      refine List.chain'_cons'.mpr ⟨?_, ih (cs.drop (size - ov))⟩
      intro y hy
      have hdt : (cs.take size).drop (size - ov) = (cs.drop (size - ov)).take ov := by
        rw [List.drop_take]
        congr 1
        omega
      rcases windowChunksF_head size (size - ov) f (cs.drop (size - ov)) with hh | hh
      · rw [hh] at hy
        cases hy
        exact hdt
      · rw [hh] at hy
        cases hy
        rw [hdt, List.take_take]
        congr 1
        omega

/-! ## Claim C7 -/

/-- C7.  The fallback structural splitter first matches level-one
headings, retries with level-two headings when there are none, and with
no level-one or level-two headings at all hands the whole text to the
size-bounded recursive splitter parameterised by the separator list
ordered coarsest to finest (sub-heading levels, blank line, newline,
space, character); every chunk any path produces is at most
`CHUNK_SIZE` characters long (oversized heading blocks are subdivided),
and consecutive base windows of the size-bounded splitter share
`CHUNK_OVERLAP` characters of trailing context. -/
theorem split_markdown_structure_spec (content : Str) :
    (SEPARATORS = ["\n\n### ".data, "\n\n#### ".data, "\n\n##### ".data,
      "\n\n###### ".data, "\n\n".data, "\n".data, " ".data, []]) ∧
    (hasNonWs content = true → (scanHeadings 1 content).isEmpty = false →
      split_markdown_by_structure content = (scanHeadings 1 content).flatMap processBlock) ∧
    (hasNonWs content = true → (scanHeadings 1 content).isEmpty = true →
      (scanHeadings 2 content).isEmpty = false →
      split_markdown_by_structure content = (scanHeadings 2 content).flatMap processBlock) ∧
    (hasNonWs content = true → (scanHeadings 1 content).isEmpty = true →
      (scanHeadings 2 content).isEmpty = true →
      split_markdown_by_structure content =
        (recursiveSplit CHUNK_SIZE CHUNK_OVERLAP SEPARATORS content).enum.filterMap
          (fun p => if hasNonWs p.2 then some ⟨p.2, fallbackMeta p.1⟩ else none)) ∧
    (∀ ch ∈ split_markdown_by_structure content, ch.content.length ≤ CHUNK_SIZE) ∧
    (∀ cs : Str,
      List.Chain' (fun a b => a.drop (CHUNK_SIZE - CHUNK_OVERLAP) = b.take CHUNK_OVERLAP)
        (windowChunks CHUNK_SIZE (CHUNK_SIZE - CHUNK_OVERLAP) cs)) := by
  refine ⟨rfl, ?_, ?_, ?_, split_markdown_by_structure_le content, ?_⟩
  · intro hnws h1
    simp [split_markdown_by_structure, hnws, h1]
  · intro hnws h1 h2
    simp [split_markdown_by_structure, hnws, h1, h2]
  · intro hnws h1 h2
    simp [split_markdown_by_structure, hnws, h1, h2]
  · intro cs
    exact windowChunksF_overlap CHUNK_SIZE CHUNK_OVERLAP (by decide) cs.length cs

/-- Witness for C7 on concrete inputs: a text with a level-one heading
takes the first branch, and a heading-free text takes the recursive
fallback branch. -/
theorem split_markdown_structure_spec_witness :
    (hasNonWs ['p', 'l', 'a', 'i', 'n'] = true) ∧
    ((scanHeadings 1 ['p', 'l', 'a', 'i', 'n']).isEmpty = true) ∧
    ((scanHeadings 2 ['p', 'l', 'a', 'i', 'n']).isEmpty = true) ∧
    (split_markdown_by_structure ['p', 'l', 'a', 'i', 'n'] =
      (recursiveSplit CHUNK_SIZE CHUNK_OVERLAP SEPARATORS
        ['p', 'l', 'a', 'i', 'n']).enum.filterMap
          (fun p => if hasNonWs p.2 then some ⟨p.2, fallbackMeta p.1⟩ else none)) ∧
    (hasNonWs ['#', ' ', 'A'] = true) ∧
    ((scanHeadings 1 ['#', ' ', 'A']).isEmpty = false) ∧
    (split_markdown_by_structure ['#', ' ', 'A'] =
      (scanHeadings 1 ['#', ' ', 'A']).flatMap processBlock) :=
  ⟨rfl, rfl, rfl,
   (split_markdown_structure_spec ['p', 'l', 'a', 'i', 'n']).2.2.2.1 rfl rfl rfl,
   rfl, rfl,
   (split_markdown_structure_spec ['#', ' ', 'A']).2.1 rfl rfl⟩

/-! ## Claim C8 -/

/-- C8.  Every chunk any strategy path of `split_text` returns has
content with at least one non-whitespace character; the only pieces a
strategy's raw output loses are the whole-whitespace ones (the agno
wrapper and the recursive-fallback path each keep exactly the pieces
with non-whitespace content — no minimum-length filter). -/
theorem chunks_never_whitespace_only (agnoRaw : Option (List Str)) (content : Str) :
    (∀ ch ∈ split_text agnoRaw content, hasNonWs ch.content = true) ∧
    (∀ raw : List Str,
      (split_with_markdown_chunking raw).map (fun c => c.content) =
        raw.filter hasNonWs) ∧
    ((scanHeadings 1 content).isEmpty = true → (scanHeadings 2 content).isEmpty = true →
      hasNonWs content = true →
      (split_markdown_by_structure content).map (fun c => c.content) =
        (recursiveSplit CHUNK_SIZE CHUNK_OVERLAP SEPARATORS content).filter hasNonWs) := by
  have hagno : ∀ (raw : List Str),
      (split_with_markdown_chunking raw).map (fun c => c.content) =
        raw.filter hasNonWs := by
    intro raw
    exact chunkFilterMap_map_content
      (fun i s => ⟨(searchHeading s).2, [], (searchHeading s).1, "markdown_chunk",
        some (i + 1), "markdown_chunking"⟩) raw 0
  have hfb : ∀ ch ∈ fallbackSplit content, hasNonWs ch.content = true := by
    intro ch hch
    by_cases hnws : hasNonWs content
    · simp only [fallbackSplit, hnws, Bool.not_true, if_neg, if_false,
                 Bool.false_eq_true] at hch
      exact (List.mem_filter.mp hch).2
    · simp [fallbackSplit, hnws] at hch
  refine ⟨?_, hagno, ?_⟩
  · intro ch hch
    cases agnoRaw with
    | none => exact hfb ch hch
    | some raw =>
      by_cases hmc : (split_with_markdown_chunking raw).isEmpty
      · simp only [split_text, hmc, Bool.not_true, if_neg, if_false,
                   Bool.false_eq_true] at hch
        exact hfb ch hch
      · simp only [split_text, hmc, Bool.not_false, if_true] at hch
        exact chunkFilterMap_nonWs
          (fun i s => ⟨(searchHeading s).2, [], (searchHeading s).1, "markdown_chunk",
            some (i + 1), "markdown_chunking"⟩) raw 0 ch hch
  · intro h1 h2 hnws
    simp only [split_markdown_by_structure, hnws, Bool.not_true, if_neg, if_false,
               Bool.false_eq_true, h1, h2, if_true, List.isEmpty_nil]
    exact chunkFilterMap_map_content (fun i _ => fallbackMeta i)
      (recursiveSplit CHUNK_SIZE CHUNK_OVERLAP SEPARATORS content) 0

/-- Witness for C8: the raw agno output loses exactly its
whitespace-only piece, and the heading-free fallback keeps the whole
text. -/
theorem chunks_never_whitespace_only_witness :
    ((scanHeadings 1 ['h', 'i']).isEmpty = true) ∧
    ((scanHeadings 2 ['h', 'i']).isEmpty = true) ∧
    (hasNonWs ['h', 'i'] = true) ∧
    ((split_markdown_by_structure ['h', 'i']).map (fun c => c.content) =
      (recursiveSplit CHUNK_SIZE CHUNK_OVERLAP SEPARATORS ['h', 'i']).filter hasNonWs) ∧
    ((split_with_markdown_chunking [['a'], [' '], ['b']]).map (fun c => c.content) =
      [['a'], ['b']]) :=
  ⟨rfl, rfl, rfl,
   (chunks_never_whitespace_only none ['h', 'i']).2.2 rfl rfl rfl,
   by rw [(chunks_never_whitespace_only none ['h', 'i']).2.1 [['a'], [' '], ['b']]]; rfl⟩

/-! ## Claim C3 -/

theorem split_text_eq (agnoRaw : Option (List Str)) (content : Str) :
    split_text agnoRaw content =
      if (agnoYield agnoRaw).isEmpty then fallbackSplit content
      else agnoYield agnoRaw := by
  cases agnoRaw with
  | none => rfl
  | some raw =>
    by_cases hmc : (split_with_markdown_chunking raw).isEmpty
    · simp [split_text, agnoYield, hmc]
    · simp [split_text, agnoYield, hmc]

/-- C3.  Under the sole domain assumption that the primary strategy
cannot produce chunks out of empty or whitespace-only input, the
chunking step of file ingestion fails (raising the spec's
`ChunkingFailure` instead of returning an empty result) exactly when
the input is empty or whitespace-only, or when the primary and the
fallback strategy both produce zero chunks. -/
theorem chunking_step_fails_iff (agnoRaw : Option (List Str)) (content : Str)
    (hdom : hasNonWs content = false → agnoYield agnoRaw = []) :
    (∃ e, chunking_step agnoRaw content = Except.error e) ↔
      (hasNonWs content = false ∨
        (agnoYield agnoRaw = [] ∧ fallbackSplit content = [])) := by
  have hfail : (∃ e, chunking_step agnoRaw content = Except.error e) ↔
      split_text agnoRaw content = [] := by
    constructor
    · intro ⟨e, he⟩
      by_cases hempty : (split_text agnoRaw content).isEmpty
      · exact List.isEmpty_iff.mp hempty
      · simp [chunking_step, hempty] at he
    · intro hempty
      refine ⟨"document produced no chunks", ?_⟩
      simp [chunking_step, hempty]
  rw [hfail, split_text_eq]
  by_cases hy : (agnoYield agnoRaw).isEmpty
  · have hy' : agnoYield agnoRaw = [] := List.isEmpty_iff.mp hy
    simp only [hy, if_true]
    constructor
    · intro hfb
      exact Or.inr ⟨hy', hfb⟩
    · intro h
      rcases h with h | h
      · simp [fallbackSplit, h]
      · exact h.2
  · have hy' : agnoYield agnoRaw ≠ [] := fun h => hy (by simp [h])
    simp only [hy, if_neg, if_false, Bool.false_eq_true]
    constructor
    · intro h
      exact absurd h hy'
    · intro h
      rcases h with h | h
      · exact absurd (hdom h) hy'
      · exact absurd h.1 hy'

/-- Witness for C3 at a concrete non-empty input with no primary
strategy and at a whitespace-only input. -/
theorem chunking_step_fails_iff_witness :
    ((hasNonWs ['h', 'i'] = false → agnoYield none = []) ∧
      ((∃ e, chunking_step none ['h', 'i'] = Except.error e) ↔
        (hasNonWs ['h', 'i'] = false ∨
          (agnoYield none = [] ∧ fallbackSplit ['h', 'i'] = [])))) ∧
    ((hasNonWs [' '] = false → agnoYield none = []) ∧
      ((∃ e, chunking_step none [' '] = Except.error e) ↔
        (hasNonWs [' '] = false ∨
          (agnoYield none = [] ∧ fallbackSplit [' '] = [])))) :=
  ⟨⟨fun _ => rfl, chunking_step_fails_iff none ['h', 'i'] (fun _ => rfl)⟩,
   ⟨fun _ => rfl, chunking_step_fails_iff none [' '] (fun _ => rfl)⟩⟩

/-! ## Per-file outcome purity

The outcome of ingesting one file is determined by the file itself and
the two oracles, never by the persisted state the batch threads
through. -/

/-- The chunks `split_text` yields for a file. -/
def fileChunks (agno : AgnoOracle) (f : FileEntry) : List Chunk :=
  split_text (agno f.content) f.content

/-- Whether ingesting `f` succeeds: the file is readable, chunking
yields something, the embedder succeeds, and the vector insert's
validations (non-empty embeddings, matching counts) pass. -/
def fileSuccess (agno : AgnoOracle) (embed : EmbedOracle) (f : FileEntry) : Bool :=
  f.readable && !(fileChunks agno f).isEmpty &&
    (match embed (fileChunks agno f) with
     | Except.error _ => false
     | Except.ok embs => !embs.isEmpty && (fileChunks agno f).length == embs.length)

/-- The chunk count recorded for `f` in the batch outcome list. -/
def fileChunkCount (agno : AgnoOracle) (embed : EmbedOracle) (f : FileEntry) : Nat :=
  if fileSuccess agno embed f then (fileChunks agno f).length else 0

theorem buildRows_docId (docId : Nat) :
    ∀ (k : Nat) (chunks : List Chunk) (embs : List Vec) (r : VectorRow),
      r ∈ MilvusService.buildRows docId k chunks embs → r.document_id = docId := by
  intro k chunks
  induction chunks generalizing k with
  | nil => intro embs r hr; simp [MilvusService.buildRows] at hr
  | cons c cs ih =>
    intro embs r hr
    cases embs with
    | nil => simp [MilvusService.buildRows] at hr
    | cons e es =>
      simp only [MilvusService.buildRows] at hr
      rcases List.mem_append.mp hr with hr | hr
      · by_cases hws : hasNonWs c.content
        · simp [hws] at hr; subst hr; rfl
        · simp [hws] at hr
      · exact ih (k + 1) es r hr

theorem insert_ok_shape (st : MilvusState) (docId : Nat) (chunks : List Chunk)
    (embs : List Vec) (st' : MilvusState)
    (h : MilvusService.insert st docId chunks embs = Except.ok st') :
    (embs ≠ [] ∧ chunks.isEmpty = false ∧ chunks.length = embs.length) ∧
    ∀ row ∈ st'.rows, row ∈ st.rows ∨ row.document_id = docId := by
  cases embs with
  | nil => simp [MilvusService.insert] at h
  | cons e es =>
    by_cases hch : chunks.isEmpty
    · simp [MilvusService.insert, hch] at h
    · by_cases hlen : chunks.length = (e :: es).length
      · refine ⟨⟨by simp, by simpa using hch, hlen⟩, ?_⟩
        simp only [MilvusService.insert, hch, hlen] at h
        simp at h
        intro row hrow
        rw [← h] at hrow
        simp only [MilvusState.rows] at hrow
        rcases List.mem_append.mp hrow with hrow | hrow
        · by_cases hd : e.length = st.dimension
          · simp [hd] at hrow
            exact Or.inl hrow
          · simp [hd] at hrow
        · exact Or.inr (buildRows_docId docId 0 chunks (e :: es) row hrow)
      · simp only [List.length_cons] at hlen
        simp [MilvusService.insert, hch, hlen] at h

theorem insert_err_of_invalid (st : MilvusState) (docId : Nat) (chunks : List Chunk)
    (embs : List Vec)
    (h : embs = [] ∨ chunks.length ≠ embs.length) :
    ∃ e, MilvusService.insert st docId chunks embs = Except.error e := by
  cases embs with
  | nil => exact ⟨"chunks and embeddings must be non-empty", rfl⟩
  | cons e es =>
    rcases h with h | h
    · cases h
    · by_cases hch : chunks.isEmpty
      · exact ⟨"chunks and embeddings must be non-empty",
          by simp [MilvusService.insert, hch]⟩
      · refine ⟨"chunk/embedding count mismatch", ?_⟩
        simp only [List.length_cons] at h
        simp [MilvusService.insert, hch, h]

theorem true_false_imp : (true = false) → False := fun h => by simp at h

theorem insert_ok_of_valid (st : MilvusState) (docId : Nat) (chunks : List Chunk)
    (e : Vec) (es : List Vec) (hch : chunks.isEmpty = false)
    (hlen : chunks.length = (e :: es).length) :
    MilvusService.insert st docId chunks (e :: es) =
      Except.ok ⟨(if e.length ≠ st.dimension then (⟨e.length, []⟩ : MilvusState)
          else st).dimension,
        (if e.length ≠ st.dimension then (⟨e.length, []⟩ : MilvusState) else st).rows
          ++ MilvusService.buildRows docId 0 chunks (e :: es)⟩ := by
  simp [MilvusService.insert, hch, hlen]

theorem process_markdown_file_spec (agno : AgnoOracle) (embed : EmbedOracle)
    (f : FileEntry) (st : SysState) (v : Nat) :
    (fileSuccess agno embed f = true →
      (process_markdown_file agno embed f f.name st (some v)).1 =
        Except.ok ⟨st.nextDocId, f.name, f.path, (fileChunks agno f).length⟩) ∧
    (fileSuccess agno embed f = false →
      ∃ e, (process_markdown_file agno embed f f.name st (some v)).1 =
        Except.error e) ∧
    (∃ extra, (process_markdown_file agno embed f f.name st (some v)).2.mappings =
        st.mappings ++ extra ∧
      ∀ m ∈ extra, m.version = v ∧ m.is_active = true) ∧
    (∀ row ∈ (process_markdown_file agno embed f f.name st (some v)).2.milvus.rows,
      row ∈ st.milvus.rows ∨ row.document_id = st.nextDocId) ∧
    st.nextDocId ≤ (process_markdown_file agno embed f f.name st (some v)).2.nextDocId := by
  by_cases hread : f.readable = true
  · by_cases hempty : (fileChunks agno f).isEmpty = true
    · have hcs : chunking_step (agno f.content) f.content =
          Except.error "document produced no chunks" := by
        simp only [chunking_step, fileChunks] at hempty ⊢
        simp [hempty]
      have hfs : fileSuccess agno embed f = false := by
        simp [fileSuccess, hempty]
      simp only [process_markdown_file, hread, Bool.not_true, Bool.false_eq_true,
                 if_false, hcs]
      refine ⟨fun h => absurd (h.symm.trans hfs) true_false_imp, fun _ => ⟨_, rfl⟩,
        ⟨[], by simp, by simp⟩, fun row hrow => Or.inl hrow, le_refl _⟩
    · have hcs : chunking_step (agno f.content) f.content =
          Except.ok (fileChunks agno f) := by
        simp only [chunking_step, fileChunks] at hempty ⊢
        simp [hempty]
      cases hemb : embed (fileChunks agno f) with
      | error e =>
        have hfs : fileSuccess agno embed f = false := by
          simp [fileSuccess, hemb]
        simp only [process_markdown_file, hread, Bool.not_true, Bool.false_eq_true,
                   if_false, hcs, hemb]
        refine ⟨fun h => absurd (h.symm.trans hfs) true_false_imp, fun _ => ⟨_, rfl⟩,
          ⟨[], by simp, by simp⟩, fun row hrow => Or.inl hrow, le_refl _⟩
      | ok embs =>
        by_cases hval : embs = [] ∨ (fileChunks agno f).length ≠ embs.length
        · have hfs : fileSuccess agno embed f = false := by
            rcases hval with h | h
            · simp [fileSuccess, hemb, h]
            · simp [fileSuccess, hemb, h]
          obtain ⟨e, he⟩ := insert_err_of_invalid st.milvus st.nextDocId
            (fileChunks agno f) embs hval
          simp only [process_markdown_file, hread, Bool.not_true, Bool.false_eq_true,
                     if_false, hcs, hemb, he]
          refine ⟨fun h => absurd (h.symm.trans hfs) true_false_imp, fun _ => ⟨_, rfl⟩,
            ⟨[], by simp, by simp⟩, fun row hrow => Or.inl hrow, Nat.le_succ _⟩
        · push_neg at hval
          obtain ⟨hne, hlen⟩ := hval
          have hchb : (fileChunks agno f).isEmpty = false := by
            cases hx : (fileChunks agno f).isEmpty
            · rfl
            · exact absurd hx hempty
          have hfs : fileSuccess agno embed f = true := by
            simp [fileSuccess, hread, hemb, hlen, hchb]
            simpa using hne
          cases embs with
          | nil => cases hne rfl
          | cons e0 es =>
            have hins := insert_ok_of_valid st.milvus st.nextDocId
              (fileChunks agno f) e0 es hchb hlen
            simp only [process_markdown_file, hread, Bool.not_true, Bool.false_eq_true,
                       if_false, hcs, hemb, hins]
            have hrows : ∀ row ∈
                ((if e0.length ≠ st.milvus.dimension then (⟨e0.length, []⟩ : MilvusState)
                  else st.milvus).rows
                  ++ MilvusService.buildRows st.nextDocId 0 (fileChunks agno f)
                      (e0 :: es)),
                row ∈ st.milvus.rows ∨ row.document_id = st.nextDocId := by
              intro row hrow
              rcases List.mem_append.mp hrow with hrow | hrow
              · by_cases hd : e0.length ≠ st.milvus.dimension
                · simp [hd] at hrow
                · simp [hd] at hrow
                  exact Or.inl hrow
              · exact Or.inr (buildRows_docId st.nextDocId 0 (fileChunks agno f)
                  (e0 :: es) row hrow)
            by_cases hup : f.inUploads = true
            · simp only [hup, if_true]
              exact ⟨fun _ => by simp, fun h => absurd (hfs.symm.trans h) true_false_imp,
                ⟨[⟨st.nextDocId, f.name, f.relPath, true, v⟩], by simp, by simp⟩,
                hrows, Nat.le_succ _⟩
            · have hup' : f.inUploads = false := by
                cases hx : f.inUploads
                · rfl
                · exact absurd hx hup
              simp only [hup', Bool.false_eq_true, if_false]
              exact ⟨fun _ => by simp, fun h => absurd (hfs.symm.trans h) true_false_imp,
                ⟨[], by simp, by simp⟩, hrows, Nat.le_succ _⟩
  · have hread' : f.readable = false := by
      cases hx : f.readable
      · rfl
      · exact absurd hx hread
    have hfs : fileSuccess agno embed f = false := by
      simp [fileSuccess, hread']
    simp only [process_markdown_file, hread', Bool.not_false, if_true]
    exact ⟨fun h => absurd (h.symm.trans hfs) true_false_imp, fun _ => ⟨_, rfl⟩,
      ⟨[], by simp, by simp⟩, fun row hrow => Or.inl hrow, le_refl _⟩

theorem processFiles_spec (agno : AgnoOracle) (embed : EmbedOracle) :
    ∀ (fs : List FileEntry) (st : SysState) (v : Nat),
      ((processFiles agno embed fs st v).1.map (fun e => e.filename) =
        fs.map (fun f => f.name)) ∧
      ((processFiles agno embed fs st v).1.map (fun e => e.success) =
        fs.map (fun f => fileSuccess agno embed f)) ∧
      ((processFiles agno embed fs st v).1.map (fun e => e.chunk_count) =
        fs.map (fun f => fileChunkCount agno embed f)) ∧
      (∀ e ∈ (processFiles agno embed fs st v).1,
        e.success = false → e.error.isSome = true) ∧
      (∃ extra, (processFiles agno embed fs st v).2.mappings = st.mappings ++ extra ∧
        ∀ m ∈ extra, m.version = v ∧ m.is_active = true) ∧
      (∀ row ∈ (processFiles agno embed fs st v).2.milvus.rows,
        row ∈ st.milvus.rows ∨ st.nextDocId ≤ row.document_id) ∧
      st.nextDocId ≤ (processFiles agno embed fs st v).2.nextDocId := by
  intro fs
  induction fs with
  | nil =>
    intro st v
    exact ⟨rfl, rfl, rfl, by simp [processFiles], ⟨[], by simp [processFiles], by simp⟩,
      fun row hrow => Or.inl hrow, le_refl _⟩
  | cons f fs ih =>
    intro st v
    obtain ⟨hok, herr, ⟨ex1, hmap1, hex1⟩, hrows1, hid1⟩ :=
      process_markdown_file_spec agno embed f st v
    set r1 := process_markdown_file agno embed f f.name st (some v) with hr1
    obtain ⟨ihn, ihs, ihc, ihe, ⟨ex2, hmap2, hex2⟩, ihrows, ihid⟩ := ih r1.2 v
    have hentry :
        (match r1.1 with
          | Except.ok d =>
            (⟨true, some d.id, d.filename, d.chunk_count, f.path, none⟩ : ResultEntry)
          | Except.error e => ⟨false, none, f.name, 0, f.path, some e⟩).filename = f.name ∧
        (match r1.1 with
          | Except.ok d =>
            (⟨true, some d.id, d.filename, d.chunk_count, f.path, none⟩ : ResultEntry)
          | Except.error e => ⟨false, none, f.name, 0, f.path, some e⟩).success =
            fileSuccess agno embed f ∧
        (match r1.1 with
          | Except.ok d =>
            (⟨true, some d.id, d.filename, d.chunk_count, f.path, none⟩ : ResultEntry)
          | Except.error e => ⟨false, none, f.name, 0, f.path, some e⟩).chunk_count =
            fileChunkCount agno embed f ∧
        ((match r1.1 with
          | Except.ok d =>
            (⟨true, some d.id, d.filename, d.chunk_count, f.path, none⟩ : ResultEntry)
          | Except.error e => ⟨false, none, f.name, 0, f.path, some e⟩).success = false →
          (match r1.1 with
            | Except.ok d =>
              (⟨true, some d.id, d.filename, d.chunk_count, f.path, none⟩ : ResultEntry)
            | Except.error e => ⟨false, none, f.name, 0, f.path, some e⟩).error.isSome
              = true) := by
      cases hsf : fileSuccess agno embed f with
      | true =>
        rw [hok hsf]
        exact ⟨rfl, rfl, by simp [fileChunkCount, hsf], fun h => by cases h⟩
      | false =>
        obtain ⟨e, he⟩ := herr hsf
        rw [he]
        exact ⟨rfl, rfl, by simp [fileChunkCount, hsf], fun _ => rfl⟩
    refine ⟨?_, ?_, ?_, ?_, ?_, ?_, ?_⟩
    · simp only [processFiles, List.map_cons]
      rw [← hr1, ihn, hentry.1]
    · simp only [processFiles, List.map_cons]
      rw [← hr1, ihs, hentry.2.1]
    · simp only [processFiles, List.map_cons]
      rw [← hr1, ihc, hentry.2.2.1]
    · simp only [processFiles]
      intro e he
      rw [← hr1] at he
      rcases List.mem_cons.mp he with rfl | he'
      · exact hentry.2.2.2
      · exact ihe e he'
    · refine ⟨ex1 ++ ex2, ?_, ?_⟩
      · simp only [processFiles]
        rw [← hr1, hmap2, hmap1, List.append_assoc]
      · intro m hm
        rcases List.mem_append.mp hm with hm' | hm'
        · exact hex1 m hm'
        · exact hex2 m hm'
    · simp only [processFiles]
      intro row hrow
      rw [← hr1] at hrow
      rcases ihrows row hrow with hrow' | hrow'
      · rcases hrows1 row hrow' with h | h
        · exact Or.inl h
        · exact Or.inr (le_of_eq h.symm)
      · exact Or.inr (le_trans hid1 hrow')
    · simp only [processFiles]
      rw [← hr1]
      exact le_trans hid1 ihid

/-! ## Claim C6 -/

/-- C6.  Directory ingestion enumerates the eligible `*.md` files in
deterministic lexicographic path order, processes them under the one
shared version, and returns exactly one outcome per enumerated file, in
order: each outcome's filename is its file's basename, its success flag
and chunk count are functions of that file and the two oracles alone
(one file's failure can neither abort nor alter a sibling's outcome),
and every failure outcome carries an error message; all mappings the
batch writes are active rows at the shared version. -/
theorem process_directory_independence (agno : AgnoOracle) (embed : EmbedOracle)
    (dir : List FileEntry) (st : SysState) (v : Nat)
    (h : (find_markdown_files dir).isEmpty = false) :
    List.Pairwise (fun a b => lexLe a.path b.path = true) (find_markdown_files dir) ∧
    (find_markdown_files dir).Perm (dir.filter (fun f => hasMdName f.name)) ∧
    ∃ results st',
      process_markdown_directory agno embed dir st (some v) =
        (Except.ok results, st') ∧
      results.length = (find_markdown_files dir).length ∧
      (results.map (fun e => e.filename) =
        (find_markdown_files dir).map (fun f => f.name)) ∧
      (results.map (fun e => e.success) =
        (find_markdown_files dir).map (fun f => fileSuccess agno embed f)) ∧
      (results.map (fun e => e.chunk_count) =
        (find_markdown_files dir).map (fun f => fileChunkCount agno embed f)) ∧
      (∀ e ∈ results, e.success = false → e.error.isSome = true) ∧
      (∃ extra, st'.mappings = st.mappings ++ extra ∧
        ∀ m ∈ extra, m.version = v ∧ m.is_active = true) := by
  haveI htot : IsTotal FileEntry (fun a b => lexLe a.path b.path = true) :=
    ⟨fun a b => lexLe_total a.path b.path⟩
  haveI htr : IsTrans FileEntry (fun a b => lexLe a.path b.path = true) :=
    ⟨fun _ _ _ hab hbc => lexLe_trans hab hbc⟩
  refine ⟨List.sorted_insertionSort _ _, List.perm_insertionSort _ _, ?_⟩
  obtain ⟨hn, hs, hc, he, hex, _, _⟩ :=
    processFiles_spec agno embed (find_markdown_files dir) st v
  refine ⟨(processFiles agno embed (find_markdown_files dir) st v).1,
          (processFiles agno embed (find_markdown_files dir) st v).2, ?_,
          ?_, hn, hs, hc, he, hex⟩
  · simp [process_markdown_directory, h]
  · have := congrArg List.length hn
    simpa using this

/-! ## Claim C5 -/

/-- C5.  A rebuild on an existing directory that returns a summary has:
deactivated every pre-existing mapping in place (no copy-forward),
dropped the vector collection (the collection afterwards holds only
records of documents created by the re-ingestion), re-ingested the
directory under the one fresh version `nextVersion()`, and produced a
summary with `success_count + fail_count = total_files` (one outcome
per enumerated file) and `total_chunks` the sum of the chunk counts of
the successful outcomes only. -/
theorem rebuild_spec (agno : AgnoOracle) (embed : EmbedOracle)
    (dir : List FileEntry) (st : SysState) (summary : RebuildSummary) (st' : SysState)
    (h : rebuild_knowledge_base agno embed true true dir st = (Except.ok summary, st')) :
    summary.version = get_next_version st.mappings ∧
    summary.total_files = (find_markdown_files dir).length ∧
    summary.success_count + summary.fail_count = summary.total_files ∧
    summary.total_chunks =
      ((summary.results.filter (fun r => r.success)).map (fun r => r.chunk_count)).sum ∧
    (∃ extra, st'.mappings =
        st.mappings.map (fun m =>
          ⟨m.document_id, m.filename, m.file_path, false, m.version⟩) ++ extra ∧
      ∀ m ∈ extra, m.version = summary.version ∧ m.is_active = true) ∧
    (∀ row ∈ st'.milvus.rows, st.nextDocId ≤ row.document_id) := by
  by_cases hmd : (find_markdown_files dir).isEmpty
  · simp [rebuild_knowledge_base, process_markdown_directory, hmd] at h
  · have hmd' : (find_markdown_files dir).isEmpty = false := by
      cases hx : (find_markdown_files dir).isEmpty
      · rfl
      · exact absurd hx hmd
    simp only [rebuild_knowledge_base, process_markdown_directory, hmd',
               Bool.not_true, Bool.false_eq_true, if_false, Bool.not_false, if_true,
               Option.getD_some] at h
    set st1 : SysState :=
      ⟨st.documents,
       st.mappings.map (fun m =>
         ⟨m.document_id, m.filename, m.file_path, false, m.version⟩),
       ⟨st.milvus.dimension, []⟩, st.nextDocId⟩ with hst1
    obtain ⟨hsum, hst'⟩ := Prod.mk.inj h
    obtain ⟨hn, hs, hc, he, ⟨extra, hmapeq, hextra⟩, hrows, _⟩ :=
      processFiles_spec agno embed (find_markdown_files dir) st1
        (get_next_version st.mappings)
    have hsum' := (Except.ok.inj hsum).symm
    have hver : summary.version = get_next_version st.mappings := by rw [hsum']
    refine ⟨hver, ?_, ?_, ?_, ?_, ?_⟩
    · rw [hsum']
      have := congrArg List.length hn
      simpa using this
    · rw [hsum']
      have hle := List.length_filter_le (fun r => r.success)
        (processFiles agno embed (find_markdown_files dir) st1
          (get_next_version st.mappings)).1
      simp only [RebuildSummary.success_count, RebuildSummary.fail_count,
                 RebuildSummary.total_files]
      omega
    · rw [hsum']
    · refine ⟨extra, ?_, ?_⟩
      · rw [← hst']
        exact hmapeq
      · intro m hm
        rw [hver]
        exact hextra m hm
    · intro row hrow
      rw [← hst'] at hrow
      rcases hrows row hrow with h' | h'
      · simp [hst1] at h'
      · exact h'

/-! ## Concrete scenario used by the C5 and C6 witnesses: a directory
with two readable markdown files and one undecodable one. -/

/-- Witness oracle: agno unavailable. -/
def wAgno : AgnoOracle := fun _ => none

/-- Witness oracle: an embedder returning one 1-dimensional vector per
chunk. -/
def wEmbed : EmbedOracle := fun cs => Except.ok (cs.map (fun _ => [0]))

/-- Witness directory: `b.md` and `a.md` readable, `c.md` unreadable. -/
def wDir : List FileEntry :=
  [⟨"uploads/b.md".data, "b.md".data, true, "yo".data, true, "b.md".data⟩,
   ⟨"uploads/a.md".data, "a.md".data, true, "hi".data, true, "a.md".data⟩,
   ⟨"uploads/c.md".data, "c.md".data, false, [], true, "c.md".data⟩]

/-- Witness starting state: one stale active mapping at version 1. -/
def wSt : SysState :=
  ⟨[], [⟨5, "old.md".data, "old.md".data, true, 1⟩], ⟨1, []⟩, 6⟩

/-- The summary the witness rebuild returns. -/
def wSummary : RebuildSummary :=
  ⟨2, 3, 2, 1, 2,
   [⟨true, some 6, "a.md".data, 1, "uploads/a.md".data, none⟩,
    ⟨true, some 7, "b.md".data, 1, "uploads/b.md".data, none⟩,
    ⟨false, none, "c.md".data, 0, "uploads/c.md".data,
      some "file could not be decoded"⟩]⟩

/-- The state after the witness rebuild. -/
def wStAfter : SysState :=
  ⟨[⟨6, "a.md".data, "uploads/a.md".data, 1⟩, ⟨7, "b.md".data, "uploads/b.md".data, 1⟩],
   [⟨5, "old.md".data, "old.md".data, false, 1⟩,
    ⟨6, "a.md".data, "a.md".data, true, 2⟩,
    ⟨7, "b.md".data, "b.md".data, true, 2⟩],
   ⟨1, [⟨6, 0, "hi".data, fallbackMeta 0, [0]⟩, ⟨7, 0, "yo".data, fallbackMeta 0, [0]⟩]⟩,
   8⟩

/-- Witness for C5: the concrete rebuild deactivates the stale mapping,
re-ingests 2 of 3 files (the third is unreadable) under version 2, and
its summary adds up. -/
theorem rebuild_spec_witness :
    (rebuild_knowledge_base wAgno wEmbed true true wDir wSt =
      (Except.ok wSummary, wStAfter)) ∧
    (wSummary.version = get_next_version wSt.mappings ∧
     wSummary.total_files = (find_markdown_files wDir).length ∧
     wSummary.success_count + wSummary.fail_count = wSummary.total_files ∧
     wSummary.total_chunks =
       ((wSummary.results.filter (fun r => r.success)).map
         (fun r => r.chunk_count)).sum ∧
     (∃ extra, wStAfter.mappings =
         wSt.mappings.map (fun m =>
           ⟨m.document_id, m.filename, m.file_path, false, m.version⟩) ++ extra ∧
       ∀ m ∈ extra, m.version = wSummary.version ∧ m.is_active = true) ∧
     (∀ row ∈ wStAfter.milvus.rows, wSt.nextDocId ≤ row.document_id)) :=
  ⟨rfl, rebuild_spec wAgno wEmbed wDir wSt wSummary wStAfter rfl⟩

/-- Witness for C6 on the same concrete directory. -/
theorem process_directory_independence_witness :
    ((find_markdown_files wDir).isEmpty = false) ∧
    (List.Pairwise (fun a b => lexLe a.path b.path = true) (find_markdown_files wDir) ∧
     (find_markdown_files wDir).Perm (wDir.filter (fun f => hasMdName f.name)) ∧
     ∃ results st',
       process_markdown_directory wAgno wEmbed wDir wSt (some 2) =
         (Except.ok results, st') ∧
       results.length = (find_markdown_files wDir).length ∧
       (results.map (fun e => e.filename) =
         (find_markdown_files wDir).map (fun f => f.name)) ∧
       (results.map (fun e => e.success) =
         (find_markdown_files wDir).map (fun f => fileSuccess wAgno wEmbed f)) ∧
       (results.map (fun e => e.chunk_count) =
         (find_markdown_files wDir).map (fun f => fileChunkCount wAgno wEmbed f)) ∧
       (∀ e ∈ results, e.success = false → e.error.isSome = true) ∧
       (∃ extra, st'.mappings = wSt.mappings ++ extra ∧
         ∀ m ∈ extra, m.version = 2 ∧ m.is_active = true)) :=
  ⟨rfl, process_directory_independence wAgno wEmbed wDir wSt 2 rfl⟩
